import Mathlib

/-!
# Verification of the `rv` dependency resolver

A shallow embedding of the `rv` runtime dependency-injection container
(package `rv`, Go) together with proofs about its resolver.

The repository contains two coexisting revisions of the library:

* the *first* revision's driver (`src/revolver.go`): linking of every
  registered function against the provider pool, cycle detection by the
  recursive `setLayers` layer-assignment pass (aborting once the layer
  counter exceeds 1000), execution of the layer-sorted function list;
* the *second* revision's node code (`src/function.go`, `src/option.go`):
  `function` records carrying `inputs`/`outputs`/`state`, per-input linking
  (`linkInput` / `LinkProvides`), and the memoised `Call` method whose
  argument collection detects cycles structurally via node state.

Both are embedded below, in namespaces `RvOld` (first revision) and `RvNew`
(second revision).  Go `reflect` types are modelled as natural-number type
descriptors together with an abstract `AssignableTo` relation and an
`isError` predicate (`TypeUniverse`); Go runtime panics (nil-interface
supply, nil-pointer dereference) are modelled by the distinguished outcome
`GoErr.goPanic`.  Logging is pure output and is omitted; the cancellation
context is modelled as never cancelled (no claim below concerns it).
-/

set_option maxHeartbeats 1000000

/-- Errors produced by the resolver.  The Go code wraps the sentinel errors
of `src/revolver.go` with `fmt.Errorf("… %w …")`; since `errors.Is` matching
only depends on the wrapped sentinel, an error is modelled by its sentinel.
`userErr e` is an error value returned by a user function (propagated
verbatim by the resolver), and `goPanic` models a Go runtime panic. -/
inductive GoErr where
  | unsupportedProvideTarget
  | unsupportedInvokeTarget
  | multipleProvide
  | cannotProvideValue
  | cyclicProvideDetected
  | internalError
  | userErr : Nat → GoErr
  | goPanic
deriving DecidableEq, Repr

/-- A Go runtime type descriptor is modelled as a natural number (Go compares
`reflect.Type` values by identity, modelled by `Nat` equality).  The
conformance relation `reflect.Type.AssignableTo` and the `isErrorType`
predicate of `src/revolver.go` (`v.Kind() == reflect.Interface && v.String()
== "error"`) are abstract data of the universe. -/
structure TypeUniverse where
  assignableTo : Nat → Nat → Bool
  isError : Nat → Bool

/-- A Go `reflect.Value`: its dynamic type descriptor, the wrapped user error
when the value is a non-nil value of the error interface (`err? = some e`),
and an opaque payload distinguishing data values. -/
structure Val where
  typ : Nat
  err? : Option Nat := none
  payload : Nat := 0
deriving DecidableEq, Repr

/-- `typesSimpleAssignable` of `src/revolver.go` (lines 187-189): strict
type-descriptor identity. -/
def typesSimpleAssignable (t1 t2 : Nat) : Bool :=
  t1 == t2

/-- `duckTypingAssignable` of `src/revolver.go` (lines 191-193):
`t1 == t2 || t1.AssignableTo(t2) || t2.AssignableTo(t1)`. -/
def duckTypingAssignable (U : TypeUniverse) (t1 t2 : Nat) : Bool :=
  t1 == t2 || U.assignableTo t1 t2 || U.assignableTo t2 t1

/-- Node state of `src/function.go` (second revision): `StateInitialized`,
`StateLinked`, `StateCalled` (iota + 1). -/
inductive FnState where
  | initialized
  | linked
  | called
deriving DecidableEq, Repr

/-- The integer value of a `functionState` (`iota + 1`); the Go code compares
states as integers (`f.state >= StateCalled`, `State() < StateCalled`). -/
def FnState.toNat : FnState → Nat
  | .initialized => 1
  | .linked => 2
  | .called => 3

theorem FnState.toNat_lt_called_iff (s : FnState) :
    s.toNat < FnState.called.toNat ↔ s ≠ .called := by
  cases s <;> simp [FnState.toNat]

theorem FnState.called_le_iff (s : FnState) :
    FnState.called.toNat ≤ s.toNat ↔ s = .called := by
  cases s <;> simp [FnState.toNat]

/-! ## Array heap helpers

Go's nodes are linked by pointers; the embedding stores all nodes of a run in
one array and links them by index.  `aget` returns the default node when the
index is out of range (theorems about whole runs carry well-formedness
hypotheses making such indices unreachable); `aset` out of range is a no-op.
-/

def aget {α : Type} [Inhabited α] (g : Array α) (i : Nat) : α :=
  (g[i]?).getD default

def aset {α : Type} (g : Array α) (i : Nat) (v : α) : Array α :=
  if h : i < g.size then g.set ⟨i, h⟩ v else g

theorem size_aset {α : Type} (g : Array α) (i : Nat) (v : α) :
    (aset g i v).size = g.size := by
  unfold aset
  split <;> simp

theorem aset_oob {α : Type} (g : Array α) (i : Nat) (v : α) (h : ¬ i < g.size) :
    aset g i v = g :=
  dif_neg h

theorem aget_aset_self {α : Type} [Inhabited α] (g : Array α) (i : Nat) (v : α)
    (h : i < g.size) : aget (aset g i v) i = v := by
  simp [aget, aset, h, Array.getElem?_eq_getElem]

theorem aget_aset_ne {α : Type} [Inhabited α] (g : Array α) (i j : Nat) (v : α)
    (h : i ≠ j) : aget (aset g i v) j = aget g j := by
  unfold aget aset
  split
  · rcases Nat.lt_or_ge j g.size with hj | hj
    · rw [Array.getElem?_eq_getElem (by simpa using hj), Array.getElem?_eq_getElem hj]
      rw [Array.get_set_ne _ _ _ hj h]
    · rw [Array.getElem?_len_le _ (by simpa using hj), Array.getElem?_len_le _ hj]
  · rfl

/-! ## Second revision (`src/function.go`, `src/option.go`) -/

namespace RvNew

/-- `output` of `src/function.go` (lines 36-39): a result type and the value
populated after execution (`none` models the zero `reflect.Value`). -/
structure Output where
  typ : Nat
  value : Option Val := none
deriving Inhabited, DecidableEq

/-- `input` of `src/function.go` (lines 30-34): the parameter type, the
provider selected during linking (`none` models the nil pointer before
linking) and the index of the provider's matching output. -/
structure Input where
  typ : Nat
  provider : Option Nat := none
  outputIndex : Nat := 0
deriving Inhabited, DecidableEq

/-- `function` of `src/function.go` (lines 23-28).  `hasTarget = false`
models an empty `targetFunc` (supply nodes); the behaviour of a callable
target is embedded as a Lean function from collected argument values to
result values (its arguments are `Option Val` because a provider's output
slot may still be unpopulated — the zero `reflect.Value`). -/
structure Function where
  hasTarget : Bool := true
  target : List (Option Val) → List Val := fun _ => []
  inputs : List Input := []
  outputs : List Output := []
  state : FnState := .initialized

instance : Inhabited Function := ⟨{}⟩

/-- `function.collectArgsValues` of `src/function.go` (lines 141-156): for
each input, reading the linked provider's output value; a provider whose
state is still below `StateCalled` means a cycle (`ErrCyclicProvideDetected`),
an out-of-range output index is `ErrInternalError`.  A nil provider pointer
(only possible before linking) would be a Go nil dereference, modelled as
`goPanic`. -/
def collectArgsValues (g : Array Function) : List Input → Except GoErr (List (Option Val))
  | [] => .ok []
  | i :: rest =>
    match i.provider with
    | none => .error .goPanic
    | some pid =>
      let p := aget g pid
      if p.state.toNat < FnState.called.toNat then .error .cyclicProvideDetected
      else if p.outputs.length ≤ i.outputIndex then .error .internalError
      else
        match collectArgsValues g rest with
        | .error e => .error e
        | .ok vs => .ok ((p.outputs.getD i.outputIndex default).value :: vs)

/-- The result-splitting loop of `function.Call`, `src/function.go` lines
101-110: iterating the result values with their index, the first non-nil
value of the error type short-circuits with that error; other values
populate `outputs[i].value` in order, error positions are skipped.  (For a
function target, `reflect` guarantees as many result values as declared
outputs, so the `List.set` never falls out of range.) -/
def applyResults (U : TypeUniverse) (outs : List Output) :
    List Val → Nat → List Output × Option GoErr
  | [], _ => (outs, none)
  | v :: rest, i =>
    if U.isError v.typ then
      match v.err? with
      | some e => (outs, some (.userErr e))
      | none => applyResults U outs rest (i + 1)
    else
      applyResults U (outs.set i { outs.getD i default with value := some v }) rest (i + 1)

/-- `function.Call` of `src/function.go` (lines 63-113), acting on the node
`fid` of the heap `g`.  Returns the updated heap, the returned error (if
any), and whether the node's target function was actually invoked.  The Go
method returns immediately when `f.state >= StateCalled`; on every other
path the deferred assignment sets the state to `StateCalled`.  The
cancellation race and the timing log of lines 80-99 are pure effects and
are omitted (the context is modelled as never cancelled). -/
def call (U : TypeUniverse) (g : Array Function) (fid : Nat) (dryRun : Bool) :
    Array Function × Option GoErr × Bool :=
  if FnState.called.toNat ≤ (aget g fid).state.toNat then (g, none, false)
  else
    match collectArgsValues g (aget g fid).inputs with
    | .error e => (aset g fid { aget g fid with state := .called }, some e, false)
    | .ok args =>
      if dryRun then (aset g fid { aget g fid with state := .called }, none, false)
      else
        match applyResults U (aget g fid).outputs ((aget g fid).target args) 0 with
        | (outs, res) =>
          (aset g fid { aget g fid with outputs := outs, state := .called }, res, true)

/-- The inner candidate-output loop of `function.linkInput`
(`src/function.go` lines 121-136): scan the candidate provider's outputs
with their index, skip outputs of the error type and outputs not assignable
to the input type; a match when a provider was already recorded fails with
`ErrMultipleProvide`, otherwise the candidate and output index are
recorded and the scan continues. -/
def scanOutputs (U : TypeUniverse) (asn : Nat → Nat → Bool) (typ pid : Nat) :
    List Output → Nat → Option (Nat × Nat) → Except GoErr (Option (Nat × Nat))
  | [], _, acc => .ok acc
  | o :: rest, idx, acc =>
    if U.isError o.typ then scanOutputs U asn typ pid rest (idx + 1) acc
    else if !asn o.typ typ then scanOutputs U asn typ pid rest (idx + 1) acc
    else
      match acc with
      | some _ => .error .multipleProvide
      | none => scanOutputs U asn typ pid rest (idx + 1) (some (pid, idx))

/-- `function.linkInput` of `src/function.go` (lines 115-139): scan the
provider pool (a list of node indices), skipping the function itself
(`f == provide`, pointer identity, modelled by index identity), looking for
the unique provider output assignable to the input type. -/
def linkInput (U : TypeUniverse) (asn : Nat → Nat → Bool) (g : Array Function)
    (selfId typ : Nat) :
    List Nat → Option (Nat × Nat) → Except GoErr (Option (Nat × Nat))
  | [], acc => .ok acc
  | p :: rest, acc =>
    if p = selfId then linkInput U asn g selfId typ rest acc
    else
      match scanOutputs U asn typ p (aget g p).outputs 0 acc with
      | .error e => .error e
      | .ok acc' => linkInput U asn g selfId typ rest acc'

/-- The per-input loop of `function.LinkProvides` (`src/function.go` lines
43-54): link each input in order, fail with `ErrCannotProvideValue` when
`linkInput` selected no provider, and record the provider and output index
in the input slot.  (The Go loop iterates the original `f.inputs` slice and
mutates only already-visited entries, so iterating the initial list while
threading the heap is equivalent.) -/
def linkInputs (U : TypeUniverse) (asn : Nat → Nat → Bool) (g : Array Function)
    (fid : Nat) (pool : List Nat) :
    List Input → Nat → Except GoErr (Array Function)
  | [], _ => .ok g
  | i :: rest, idx =>
    match linkInput U asn g fid i.typ pool none with
    | .error e => .error e
    | .ok none => .error .cannotProvideValue
    | .ok (some (pid, outIdx)) =>
      let f := aget g fid
      let upd := { f.inputs.getD idx default with
                   provider := some pid, outputIndex := outIdx }
      let f' := { f with inputs := f.inputs.set idx upd }
      linkInputs U asn (aset g fid f') fid pool rest (idx + 1)

/-- `function.LinkProvides` of `src/function.go` (lines 41-57): link all
inputs, then set the node state to `StateLinked`.  (The returned `providers`
slice is consumed by the second revision's driver, which is not part of
`src/`; no claim depends on it, so it is not modelled.) -/
def LinkProvides (U : TypeUniverse) (asn : Nat → Nat → Bool) (g : Array Function)
    (fid : Nat) (pool : List Nat) : Except GoErr (Array Function) :=
  match linkInputs U asn g fid pool (aget g fid).inputs 0 with
  | .error e => .error e
  | .ok g' => .ok (aset g' fid { aget g' fid with state := .linked })

/-- `parseSupply` of `src/function.go` (lines 207-216): one output holding
the supplied value and its runtime type, state already `StateCalled`.  The
Go function takes `value any` and calls `reflect.ValueOf(value).Type()`;
for the untyped nil interface (`none`), `reflect.ValueOf` yields the zero
`Value` and `Value.Type()` panics (`reflect: call of reflect.Value.Type on
zero Value`), modelled as `goPanic`. -/
def parseSupply : Option Val → Except GoErr Function
  | none => .error .goPanic
  | some v => .ok
      { hasTarget := false, inputs := [],
        outputs := [({ typ := v.typ, value := some v } : Output)], state := .called }

/-- A Go `any` argument to `Provide`/`Invoke`: either a function value with
its parameter types, result types and behaviour, or a non-function value of
some type. -/
inductive GoTarget where
  | fn : List Nat → List Nat → (List (Option Val) → List Val) → GoTarget
  | nonFn : Nat → GoTarget

/-- `parseProvide` of `src/function.go` (lines 218-240): a non-function
target is `ErrUnsupportedProvideTarget`; otherwise inputs come from the
parameter types and outputs from the result types, in order, state
`StateInitialized`. -/
def parseProvide : GoTarget → Except GoErr Function
  | .nonFn _ => .error .unsupportedProvideTarget
  | .fn ins outs t => .ok
      { hasTarget := true, target := t,
        inputs := ins.map (fun ty => ({ typ := ty } : Input)),
        outputs := outs.map (fun ty => ({ typ := ty } : Output)),
        state := .initialized }

/-- `parseInvoke` of `src/function.go` (lines 242-259): like `parseProvide`
with `ErrUnsupportedInvokeTarget`, but no outputs are created. -/
def parseInvoke : GoTarget → Except GoErr Function
  | .nonFn _ => .error .unsupportedInvokeTarget
  | .fn ins _ t => .ok
      { hasTarget := true, target := t,
        inputs := ins.map (fun ty => ({ typ := ty } : Input)),
        outputs := [],
        state := .initialized }

/-- `supplyOption` of `src/option.go` (lines 81-86): append the supply node
to the provider pool.  The Go option function always returns a nil error;
the only non-success outcome is the `reflect` panic inside `parseSupply`,
which propagates out of option application. -/
def supplyOption (v : Option Val) (provides : List Function) :
    Except GoErr (List Function) :=
  match parseSupply v with
  | .error e => .error e
  | .ok f => .ok (provides ++ [f])

end RvNew

/-! ## First revision (`src/revolver.go`, `src/unnamed/part_000`) -/

namespace RvOld

/-- The first revision's `function` record, as used by `src/revolver.go`:
parallel input/output type lists, the providers selected during linking
(`inProvides`, one slot per input, nil before linking), the produced values
(`outValues`, searched by type in `collectArgsValues`), and the layer
assigned by `setLayers` (Go zero value 0 = not demanded).  The record type
itself lived in the first revision's `function.go`, which was replaced in
`src/` by the second revision's; every field here is the one `src/revolver.go`
reads or writes. -/
structure OFunc where
  hasTarget : Bool := true
  target : List Val → List Val := fun _ => []
  inTypes : List Nat := []
  outTypes : List Nat := []
  inProvides : List (Option Nat) := []
  outValues : List Val := []
  layer : Nat := 0

instance : Inhabited OFunc := ⟨{}⟩

/-- The output-type scan inside `linkProvides` (`src/revolver.go` lines
124-138): skip outputs of type `error` and outputs not assignable to the
input type; a match when `desired` is already set fails with
`ErrMultipleProvide`, otherwise the candidate becomes `desired` and the
scan continues (deliberately, to find multiple providers). -/
def scanOutsO (U : TypeUniverse) (asn : Nat → Nat → Bool) (inType pid : Nat) :
    List Nat → Option Nat → Except GoErr (Option Nat)
  | [], desired => .ok desired
  | t :: rest, desired =>
    if U.isError t then scanOutsO U asn inType pid rest desired
    else if !asn t inType then scanOutsO U asn inType pid rest desired
    else
      match desired with
      | some _ => .error .multipleProvide
      | none => scanOutsO U asn inType pid rest (some pid)

/-- The candidate loop inside `linkProvides` (`src/revolver.go` lines
120-142): scan every provider of the pool except the function itself
(`fn == provide`, pointer identity, modelled by index identity). -/
def linkCandsO (U : TypeUniverse) (asn : Nat → Nat → Bool) (g : Array OFunc)
    (fid inType : Nat) : List Nat → Option Nat → Except GoErr (Option Nat)
  | [], desired => .ok desired
  | p :: rest, desired =>
    if p = fid then linkCandsO U asn g fid inType rest desired
    else
      match scanOutsO U asn inType p (aget g p).outTypes desired with
      | .error e => .error e
      | .ok d' => linkCandsO U asn g fid inType rest d'

/-- The per-input loop of `linkProvides` (`src/revolver.go` lines 118-147):
for each input type, find the unique provider; no provider is
`ErrCannotProvideValue`, otherwise `fn.inProvides[indexIn] = desired`. -/
def linkInputsO (U : TypeUniverse) (asn : Nat → Nat → Bool) (g : Array OFunc)
    (fid : Nat) (pool : List Nat) : List Nat → Nat → Except GoErr (Array OFunc)
  | [], _ => .ok g
  | t :: rest, idx =>
    match linkCandsO U asn g fid t pool none with
    | .error e => .error e
    | .ok none => .error .cannotProvideValue
    | .ok (some p) =>
      let f := aget g fid
      linkInputsO U asn (aset g fid { f with inProvides := f.inProvides.set idx (some p) })
        fid pool rest (idx + 1)

/-- `linkProvides` of `src/revolver.go` (lines 117-149). -/
def linkProvidesO (U : TypeUniverse) (asn : Nat → Nat → Bool) (g : Array OFunc)
    (fid : Nat) (pool : List Nat) : Except GoErr (Array OFunc) :=
  linkInputsO U asn g fid pool (aget g fid).inTypes 0

/-- The linking loop of `resolve` (`src/revolver.go` lines 64-73): link every
function of `funcs = invokes ++ provides` against the provider pool,
returning the first error. -/
def linkAllO (U : TypeUniverse) (asn : Nat → Nat → Bool) (g : Array OFunc)
    (pool : List Nat) : List Nat → Except GoErr (Array OFunc)
  | [] => .ok g
  | f :: rest =>
    match linkProvidesO U asn g f pool with
    | .error e => .error e
    | .ok g' => linkAllO U asn g' pool rest

/-- `setLayers` of `src/revolver.go` (lines 151-164): raise each function's
layer to the current one and recurse into its providers with `layer + 1`,
failing with `ErrCyclicProvideDetected` once the layer exceeds 1000.  The Go
function tests `layer > 1000` once on entry before its loop; since `layer`
is constant across one loop, testing it before each element (as the
list-structural recursion below does) is observably identical, and it makes
the recursion well-founded.  A nil entry in the provider slice would be a Go
nil-pointer dereference (`goPanic`); after successful linking every entry is
set. -/
def bumpLayer (g : Array OFunc) (fid layer : Nat) : Array OFunc :=
  if (aget g fid).layer < layer then aset g fid { aget g fid with layer := layer } else g

/-- The recursion of `setLayers` (`src/revolver.go` lines 155-162): raise the
layer of each listed provider (`bumpLayer`, the body of lines 156-158) and
recurse into its providers at `layer + 1`, then continue with the remaining
list at the same layer. -/
def setLayersO (entries : List (Option Nat)) (layer : Nat) (g : Array OFunc) :
    Except GoErr (Array OFunc) :=
  if layer > 1000 then .error .cyclicProvideDetected
  else
    match entries with
    | [] => .ok g
    | none :: _ => .error .goPanic
    | some fid :: rest =>
      match setLayersO (aget g fid).inProvides (layer + 1) (bumpLayer g fid layer) with
      | .error e => .error e
      | .ok g2 => setLayersO rest layer g2
termination_by (1001 - layer, entries.length)

/-- The `outValues` search of `collectArgsValues` (`src/revolver.go` lines
170-175): the first produced value whose type is assignable to the input
type. -/
def findAssignable (asn : Nat → Nat → Bool) (inType : Nat) : List Val → Option Val
  | [] => none
  | v :: rest => if asn v.typ inType then some v else findAssignable asn inType rest

/-- The per-input loop of `collectArgsValues` (`src/revolver.go` lines
166-183): for each input type, search the linked provider's `outValues` for
an assignable value; no match is the revision's internal "collecting
arguments" error (a plain `fmt.Errorf`, modelled as `internalError`).  A nil
`inProvides` entry would be a nil dereference (`goPanic`). -/
def collectArgsOAux (asn : Nat → Nat → Bool) (g : Array OFunc)
    (inProvides : List (Option Nat)) : List Nat → Nat → Except GoErr (List Val)
  | [], _ => .ok []
  | t :: rest, idx =>
    match inProvides.getD idx none with
    | none => .error .goPanic
    | some pid =>
      match findAssignable asn t (aget g pid).outValues with
      | none => .error .internalError
      | some v =>
        match collectArgsOAux asn g inProvides rest (idx + 1) with
        | .error e => .error e
        | .ok vs => .ok (v :: vs)

/-- `collectArgsValues` of `src/revolver.go` (lines 166-183). -/
def collectArgsO (asn : Nat → Nat → Bool) (g : Array OFunc) (fid : Nat) :
    Except GoErr (List Val) :=
  collectArgsOAux asn g (aget g fid).inProvides (aget g fid).inTypes 0

/-- Modelled from the spec: the result-splitting of the first revision's
`function.call`, whose body (first revision `function.go`) is not in `src/`.
Per spec §4.5 step 6 and the second revision's surviving splitting code
(`src/function.go` lines 101-110): the first result of the error type whose
value is non-nil short-circuits with that error; the remaining results
become the produced values in order, error positions skipped. -/
def splitValsO (U : TypeUniverse) : List Val → Except GoErr (List Val)
  | [] => .ok []
  | v :: rest =>
    if U.isError v.typ then
      match v.err? with
      | some e => .error (.userErr e)
      | none => splitValsO U rest
    else
      match splitValsO U rest with
      | .error e => .error e
      | .ok vs => .ok (v :: vs)

/-- Modelled from the spec: the first revision's `function.call` (invoked by
`src/revolver.go` line 108), whose body is not in `src/`.  Per spec §4.5:
a node without a callable (a supply) is a no-op; otherwise the target runs
on the collected arguments and its results are split by `splitValsO`, the
non-error results becoming the node's `outValues`.  The second component
reports whether the target function was actually invoked. -/
def callO (U : TypeUniverse) (g : Array OFunc) (fid : Nat) (args : List Val) :
    Array OFunc × Bool × Option GoErr :=
  if (aget g fid).hasTarget = false then (g, false, none)
  else
    match splitValsO U ((aget g fid).target args) with
    | .error e => (g, true, some e)
    | .ok outs => (aset g fid { aget g fid with outValues := outs }, true, none)

/-- Result of the execution loop: final heap, the functions whose target was
invoked (in call order — ghost instrumentation justifying the laziness and
ordering claims), and the first error. -/
structure ExecOut where
  g : Array OFunc
  called : List Nat
  err : Option GoErr

/-- The execution loop of `resolve` (`src/revolver.go` lines 95-112):
process the layer-sorted functions, skipping layer-0 ("useless") ones;
collect argument values, call the function, abort on the first error. -/
def execLoop (U : TypeUniverse) (asn : Nat → Nat → Bool) :
    List Nat → Array OFunc → List Nat → ExecOut
  | [], g, log => ⟨g, log, none⟩
  | fid :: rest, g, log =>
    if (aget g fid).layer = 0 then execLoop U asn rest g log
    else
      match collectArgsO asn g fid with
      | .error e => ⟨g, log, some e⟩
      | .ok args =>
        match callO U g fid args with
        | (g', inv, some e) => ⟨g', if inv then log ++ [fid] else log, some e⟩
        | (g', inv, none) => execLoop U asn rest g' (if inv then log ++ [fid] else log)

/-- The sort of `resolve` (`src/revolver.go` lines 87-89): functions ordered
by descending layer.  Go's `sort.Slice` is an unspecified-order unstable
sort; it is modelled by insertion sort, a deterministic sort producing a
permutation ordered by the same comparison — the resolver's behaviour only
depends on those two properties, because layers strictly separate every
producer from its consumers. -/
def sortByLayer (g : Array OFunc) (l : List Nat) : List Nat :=
  l.insertionSort (fun a b => (aget g b).layer ≤ (aget g a).layer)

/-- The options of the first revision that matter to `resolve`
(`src/unnamed/part_000`: `WithDryRun`, `WithDuckTyping`). -/
structure Flags where
  dryRun : Bool := false
  duckTyping : Bool := false

/-- The parsed state of a `revolver` after option application: the node heap
and the index lists `invokes` and `provides`. -/
structure OGraph where
  funcs : Array OFunc
  invokes : List Nat
  provides : List Nat

/-- The assignability predicate selected by `resolve` (`src/revolver.go`
lines 56-60). -/
def assignableOf (U : TypeUniverse) (fl : Flags) : Nat → Nat → Bool :=
  if fl.duckTyping then duckTypingAssignable U else typesSimpleAssignable

/-- `revolver.resolve` of `src/revolver.go` (lines 51-115): link every
function (`funcs = invokes ++ provides`) against the provider pool; under
dry-run return immediately after linking; otherwise assign layers from the
invoke roots (cycle detection), sort by descending layer, and run the
execution loop.  Logging is omitted and the context is never cancelled.
Returns the resolution error (if any) together with the list of functions
whose target was invoked. -/
def resolveO (U : TypeUniverse) (gr : OGraph) (fl : Flags) : Option GoErr × List Nat :=
  match linkAllO U (assignableOf U fl) gr.funcs gr.provides (gr.invokes ++ gr.provides) with
  | .error e => (some e, [])
  | .ok g1 =>
    if fl.dryRun then (none, [])
    else
      match setLayersO (gr.invokes.map some) 1 g1 with
      | .error e => (some e, [])
      | .ok g2 =>
        ((execLoop U (assignableOf U fl)
            (sortByLayer g2 (gr.invokes ++ gr.provides)) g2 []).err,
          (execLoop U (assignableOf U fl)
            (sortByLayer g2 (gr.invokes ++ gr.provides)) g2 []).called)

/-- The input-to-producer edge relation of a linked heap: `edgeO g c p` holds
when `p` is a provider recorded in `c.inProvides`. -/
def edgeO (g : Array OFunc) (c p : Nat) : Prop :=
  some p ∈ (aget g c).inProvides

instance (g : Array OFunc) (c p : Nat) : Decidable (edgeO g c p) := by
  unfold edgeO
  infer_instance

end RvOld

/-! ## Claim C8: symmetry of structural assignability -/

/-- C8: the structural (duck-typing) assignability predicate is symmetric:
for all runtime types `a` and `b`, `duckTypingAssignable a b` holds iff
`duckTypingAssignable b a` holds, the predicate being
`a == b ∨ a conforms-to b ∨ b conforms-to a` (`src/revolver.go` lines
191-193). -/
theorem duckTypingAssignable_symm (U : TypeUniverse) (a b : Nat) :
    duckTypingAssignable U a b = duckTypingAssignable U b a ∧
      duckTypingAssignable U a b
        = (a == b || U.assignableTo a b || U.assignableTo b a) := by
  refine ⟨?_, rfl⟩
  by_cases hab : a = b
  · subst hab
    cases U.assignableTo a a <;> simp [duckTypingAssignable]
  · have h1 : (a == b) = false := by simp [hab]
    have h2 : (b == a) = false := by simp [Ne.symm hab]
    simp only [duckTypingAssignable, h1, h2]
    cases U.assignableTo a b <;> cases U.assignableTo b a <;> simp

/-! ## Properties of `setLayers` (first revision)

`setLayersO` mutates only the `layer` fields; successful completion bounds
the length of every provider walk from its roots, and final layers strictly
increase along every input-to-producer edge out of a node the pass raised.
These facts drive the cycle-detection, laziness and ordering claims. -/

namespace RvOld

/-- A node with its layer forgotten (everything `setLayersO` leaves alone). -/
def OFunc.eraseLayer (f : OFunc) : OFunc :=
  { f with layer := 0 }

theorem aget_aset_eraseLayer (g : Array OFunc) (fid : Nat) (L : Nat) (i : Nat) :
    (aget (aset g fid { aget g fid with layer := L }) i).eraseLayer
      = (aget g i).eraseLayer := by
  by_cases hs : fid < g.size
  · by_cases hi : i = fid
    · subst hi
      rw [aget_aset_self _ _ _ hs]
      simp [OFunc.eraseLayer]
    · rw [aget_aset_ne _ _ _ _ (fun h => hi h.symm)]
  · unfold aset
    rw [dif_neg hs]

theorem size_bumpLayer (g : Array OFunc) (fid layer : Nat) :
    (bumpLayer g fid layer).size = g.size := by
  unfold bumpLayer
  split
  · exact size_aset ..
  · rfl

theorem bumpLayer_eraseLayer (g : Array OFunc) (fid layer i : Nat) :
    (aget (bumpLayer g fid layer) i).eraseLayer = (aget g i).eraseLayer := by
  unfold bumpLayer
  split
  · exact aget_aset_eraseLayer ..
  · rfl

/-- A successful `setLayersO` call starts below the depth guard. -/
theorem setLayersO_ok_le {entries : List (Option Nat)} {layer : Nat}
    {g g' : Array OFunc} (h : setLayersO entries layer g = .ok g') :
    layer ≤ 1000 := by
  rw [setLayersO.eq_def] at h
  by_contra hgt
  rw [if_pos (Nat.lt_of_not_le hgt)] at h
  exact Except.noConfusion h

/-- `setLayersO` preserves the array size and every field except `layer`. -/
theorem setLayersO_ok_erase {entries : List (Option Nat)} {layer : Nat}
    {g g' : Array OFunc} (h : setLayersO entries layer g = .ok g') :
    g'.size = g.size ∧ ∀ i, (aget g' i).eraseLayer = (aget g i).eraseLayer := by
  induction entries, layer, g using setLayersO.induct generalizing g' with
  | case1 entries layer g hgt =>
    rw [setLayersO.eq_def, if_pos hgt] at h
    exact Except.noConfusion h
  | case2 layer g hle =>
    rw [setLayersO.eq_def, if_neg hle] at h
    cases h
    exact ⟨rfl, fun _ => rfl⟩
  | case3 layer g hle tail =>
    rw [setLayersO.eq_def, if_neg hle] at h
    exact Except.noConfusion h
  | case4 layer g hle fid rest e hsub ih =>
    rw [setLayersO.eq_def, if_neg hle] at h
    simp only [hsub] at h
    exact Except.noConfusion h
  | case5 layer g hle fid rest g2 hsub ih1 ih2 =>
    rw [setLayersO.eq_def, if_neg hle] at h
    simp only [hsub] at h
    obtain ⟨hs1, he1⟩ := ih1 hsub
    obtain ⟨hs2, he2⟩ := ih2 h
    constructor
    · rw [hs2, hs1, size_bumpLayer]
    · intro i
      rw [he2 i, he1 i, bumpLayer_eraseLayer]
end RvOld

namespace RvOld

theorem bumpLayer_inProvides (g : Array OFunc) (fid layer i : Nat) :
    (aget (bumpLayer g fid layer) i).inProvides = (aget g i).inProvides := by
  have h := congrArg OFunc.inProvides (bumpLayer_eraseLayer g fid layer i)
  exact h

theorem setLayersO_ok_inProvides {entries : List (Option Nat)} {layer : Nat}
    {g g' : Array OFunc} (h : setLayersO entries layer g = .ok g') (i : Nat) :
    (aget g' i).inProvides = (aget g i).inProvides := by
  have h2 := congrArg OFunc.inProvides ((setLayersO_ok_erase h).2 i)
  exact h2

theorem bumpLayer_edge_iff (g : Array OFunc) (fid layer : Nat) (a b : Nat) :
    edgeO (bumpLayer g fid layer) a b ↔ edgeO g a b := by
  unfold edgeO
  rw [bumpLayer_inProvides]

theorem setLayersO_ok_edge_iff {entries : List (Option Nat)} {layer : Nat}
    {g g' : Array OFunc} (h : setLayersO entries layer g = .ok g') (a b : Nat) :
    edgeO g' a b ↔ edgeO g a b := by
  unfold edgeO
  rw [setLayersO_ok_inProvides h]

/-- A walk of `k` input-to-producer edges from `a` to `b`. -/
def walkTo (g : Array OFunc) : Nat → Nat → Nat → Prop
  | a, b, 0 => a = b
  | a, b, k + 1 => ∃ c, edgeO g a c ∧ walkTo g c b k

theorem walkTo_congr {g g2 : Array OFunc}
    (he : ∀ a b, edgeO g a b ↔ edgeO g2 a b) :
    ∀ k a b, walkTo g a b k → walkTo g2 a b k := by
  intro k
  induction k with
  | zero => exact fun a b h => h
  | succ k ih =>
    rintro a b ⟨c, hc, hw⟩
    exact ⟨c, (he a c).mp hc, ih c b hw⟩

theorem bumpLayer_layer_le (g : Array OFunc) (fid layer i : Nat) :
    (aget g i).layer ≤ (aget (bumpLayer g fid layer) i).layer := by
  unfold bumpLayer
  split
  next hlt =>
    by_cases hs : fid < g.size
    · by_cases hi : i = fid
      · subst hi
        rw [aget_aset_self _ _ _ hs]
        exact Nat.le_of_lt hlt
      · rw [aget_aset_ne _ _ _ _ (fun h => hi h.symm)]
    · unfold aset
      rw [dif_neg hs]
  next => exact Nat.le_refl _

theorem bumpLayer_self_le (g : Array OFunc) (fid layer : Nat) (hs : fid < g.size) :
    layer ≤ (aget (bumpLayer g fid layer) fid).layer := by
  unfold bumpLayer
  split
  next => rw [aget_aset_self _ _ _ hs]
  next hlt => omega

/-- If `bumpLayer` raised node `n`, then `n` is the bumped node, it is in
range, and its new layer is exactly `layer`. -/
theorem bumpLayer_raised {g : Array OFunc} {fid layer n : Nat}
    (hb : (aget g n).layer < (aget (bumpLayer g fid layer) n).layer) :
    n = fid ∧ fid < g.size ∧ (aget (bumpLayer g fid layer) n).layer = layer := by
  by_cases hlt : (aget g fid).layer < layer
  · have hbump : bumpLayer g fid layer = aset g fid { aget g fid with layer := layer } := by
      unfold bumpLayer
      rw [if_pos hlt]
    rw [hbump] at hb ⊢
    by_cases hs : fid < g.size
    · by_cases hi : n = fid
      · subst hi
        rw [aget_aset_self _ _ _ hs] at hb ⊢
        exact ⟨rfl, hs, rfl⟩
      · rw [aget_aset_ne _ _ _ _ (fun h => hi h.symm)] at hb
        omega
    · rw [show aset g fid { aget g fid with layer := layer } = g from dif_neg hs] at hb
      omega
  · have hbump : bumpLayer g fid layer = g := by
      unfold bumpLayer
      rw [if_neg hlt]
    rw [hbump] at hb
    omega

/-- `setLayersO` never lowers a layer. -/
theorem setLayersO_ok_mono {entries : List (Option Nat)} {layer : Nat}
    {g g' : Array OFunc} (h : setLayersO entries layer g = .ok g') (i : Nat) :
    (aget g i).layer ≤ (aget g' i).layer := by
  induction entries, layer, g using setLayersO.induct generalizing g' with
  | case1 entries layer g hgt =>
    rw [setLayersO.eq_def, if_pos hgt] at h
    exact Except.noConfusion h
  | case2 layer g hle =>
    rw [setLayersO.eq_def, if_neg hle] at h
    cases h
    exact Nat.le_refl _
  | case3 layer g hle tail =>
    rw [setLayersO.eq_def, if_neg hle] at h
    exact Except.noConfusion h
  | case4 layer g hle fid rest e hsub ih =>
    rw [setLayersO.eq_def, if_neg hle] at h
    simp only [hsub] at h
    exact Except.noConfusion h
  | case5 layer g hle fid rest g2 hsub ih1 ih2 =>
    rw [setLayersO.eq_def, if_neg hle] at h
    simp only [hsub] at h
    calc (aget g i).layer
        ≤ (aget (bumpLayer g fid layer) i).layer := bumpLayer_layer_le ..
      _ ≤ (aget g2 i).layer := ih1 hsub
      _ ≤ (aget g' i).layer := ih2 h
end RvOld

namespace RvOld

/-- Every provider link of the heap is in range (true for every heap built by
linking against a pool of in-range indices). -/
def WFlinks (g : Array OFunc) : Prop :=
  ∀ i q, some q ∈ (aget g i).inProvides → q < g.size

/-- Every provider link of the heap is set (true after successful linking of
every function; a nil link would make Go's `setLayers` dereference nil). -/
def AllSome (g : Array OFunc) : Prop :=
  ∀ i, ∀ e ∈ (aget g i).inProvides, e ≠ none

theorem WFlinks_bump (g : Array OFunc) (fid layer : Nat) (h : WFlinks g) :
    WFlinks (bumpLayer g fid layer) := by
  intro i q hq
  rw [bumpLayer_inProvides] at hq
  rw [size_bumpLayer]
  exact h i q hq

theorem WFlinks_setLayersO {entries : List (Option Nat)} {layer : Nat}
    {g g' : Array OFunc} (hok : setLayersO entries layer g = .ok g')
    (h : WFlinks g) : WFlinks g' := by
  intro i q hq
  rw [setLayersO_ok_inProvides hok] at hq
  rw [(setLayersO_ok_erase hok).1]
  exact h i q hq

theorem AllSome_bump (g : Array OFunc) (fid layer : Nat) (h : AllSome g) :
    AllSome (bumpLayer g fid layer) := by
  intro i e he
  rw [bumpLayer_inProvides] at he
  exact h i e he

theorem AllSome_setLayersO {entries : List (Option Nat)} {layer : Nat}
    {g g' : Array OFunc} (hok : setLayersO entries layer g = .ok g')
    (h : AllSome g) : AllSome g' := by
  intro i e he
  rw [setLayersO_ok_inProvides hok] at he
  exact h i e he

/-- A listed (in-range) node ends with layer at least the current one. -/
theorem setLayersO_ok_root {entries : List (Option Nat)} {layer : Nat}
    {g g' : Array OFunc} (h : setLayersO entries layer g = .ok g')
    {f : Nat} (hf : some f ∈ entries) (hfs : f < g.size) :
    layer ≤ (aget g' f).layer := by
  induction entries, layer, g using setLayersO.induct generalizing g' with
  | case1 entries layer g hgt =>
    rw [setLayersO.eq_def, if_pos hgt] at h
    exact Except.noConfusion h
  | case2 layer g hle =>
    exact absurd hf (List.not_mem_nil _)
  | case3 layer g hle tail =>
    rw [setLayersO.eq_def, if_neg hle] at h
    exact Except.noConfusion h
  | case4 layer g hle fid rest e hsub ih =>
    rw [setLayersO.eq_def, if_neg hle] at h
    simp only [hsub] at h
    exact Except.noConfusion h
  | case5 layer g hle fid rest g2 hsub ih1 ih2 =>
    rw [setLayersO.eq_def, if_neg hle] at h
    simp only [hsub] at h
    rcases List.mem_cons.mp hf with heq | hmem
    · have hfid : f = fid := Option.some.inj heq
      subst hfid
      calc layer ≤ (aget (bumpLayer g f layer) f).layer := bumpLayer_self_le _ _ _ hfs
        _ ≤ (aget g2 f).layer := setLayersO_ok_mono hsub f
        _ ≤ (aget g' f).layer := setLayersO_ok_mono h f
    · exact ih2 h hmem (by
        rw [(setLayersO_ok_erase hsub).1, size_bumpLayer]
        exact hfs)

/-- If this pass raised node `n`, the final layer of each provider of `n`
strictly exceeds the final layer of `n`. -/
theorem setLayersO_ok_edgeRaise {entries : List (Option Nat)} {layer : Nat}
    {g g' : Array OFunc} (hwf : WFlinks g)
    (h : setLayersO entries layer g = .ok g') {n p : Nat} (hedge : edgeO g n p)
    (hr : (aget g n).layer < (aget g' n).layer) :
    (aget g' n).layer < (aget g' p).layer := by
  induction entries, layer, g using setLayersO.induct generalizing g' with
  | case1 entries layer g hgt =>
    rw [setLayersO.eq_def, if_pos hgt] at h
    exact Except.noConfusion h
  | case2 layer g hle =>
    rw [setLayersO.eq_def, if_neg hle] at h
    cases h
    exact absurd hr (Nat.lt_irrefl _)
  | case3 layer g hle tail =>
    rw [setLayersO.eq_def, if_neg hle] at h
    exact Except.noConfusion h
  | case4 layer g hle fid rest e hsub ih =>
    rw [setLayersO.eq_def, if_neg hle] at h
    simp only [hsub] at h
    exact Except.noConfusion h
  | case5 layer g hle fid rest g2 hsub ih1 ih2 =>
    rw [setLayersO.eq_def, if_neg hle] at h
    simp only [hsub] at h
    have hedge1 : edgeO (bumpLayer g fid layer) n p := (bumpLayer_edge_iff ..).mpr hedge
    have hedge2 : edgeO g2 n p := (setLayersO_ok_edge_iff hsub ..).mpr hedge1
    by_cases h2 : (aget g2 n).layer < (aget g' n).layer
    · exact ih2 (WFlinks_setLayersO hsub (WFlinks_bump _ _ _ hwf)) h hedge2 h2
    · have e2 : (aget g' n).layer = (aget g2 n).layer :=
        Nat.le_antisymm (Nat.le_of_not_lt h2) (setLayersO_ok_mono h n)
      by_cases h1 : (aget (bumpLayer g fid layer) n).layer < (aget g2 n).layer
      · have hstep := ih1 (WFlinks_bump _ _ _ hwf) hsub hedge1 h1
        have hle2 : (aget g2 p).layer ≤ (aget g' p).layer := setLayersO_ok_mono h p
        omega
      · have e1 : (aget g2 n).layer = (aget (bumpLayer g fid layer) n).layer :=
          Nat.le_antisymm (Nat.le_of_not_lt h1) (setLayersO_ok_mono hsub n)
        have hb : (aget g n).layer < (aget (bumpLayer g fid layer) n).layer := by omega
        obtain ⟨hn, hs, hval⟩ := bumpLayer_raised hb
        subst hn
        have hmem : some p ∈ (aget g n).inProvides := hedge
        have hps : p < (bumpLayer g n layer).size := by
          rw [size_bumpLayer]
          exact hwf n p hmem
        have hroot : layer + 1 ≤ (aget g2 p).layer :=
          setLayersO_ok_root hsub hmem hps
        have hle2 : (aget g2 p).layer ≤ (aget g' p).layer := setLayersO_ok_mono h p
        omega

theorem reflTransGen_edge_congr {g g2 : Array OFunc}
    (he : ∀ a b, edgeO g a b ↔ edgeO g2 a b) {a b : Nat}
    (h : Relation.ReflTransGen (edgeO g) a b) :
    Relation.ReflTransGen (edgeO g2) a b := by
  induction h with
  | refl => exact Relation.ReflTransGen.refl
  | tail _ hbc ih => exact Relation.ReflTransGen.tail ih ((he _ _).mp hbc)

/-- Only nodes reachable from the listed roots are raised by the pass. -/
theorem setLayersO_ok_raiseReach {entries : List (Option Nat)} {layer : Nat}
    {g g' : Array OFunc} (h : setLayersO entries layer g = .ok g') {n : Nat}
    (hr : (aget g n).layer < (aget g' n).layer) :
    ∃ f, some f ∈ entries ∧ Relation.ReflTransGen (edgeO g) f n := by
  induction entries, layer, g using setLayersO.induct generalizing g' with
  | case1 entries layer g hgt =>
    rw [setLayersO.eq_def, if_pos hgt] at h
    exact Except.noConfusion h
  | case2 layer g hle =>
    rw [setLayersO.eq_def, if_neg hle] at h
    cases h
    exact absurd hr (Nat.lt_irrefl _)
  | case3 layer g hle tail =>
    rw [setLayersO.eq_def, if_neg hle] at h
    exact Except.noConfusion h
  | case4 layer g hle fid rest e hsub ih =>
    rw [setLayersO.eq_def, if_neg hle] at h
    simp only [hsub] at h
    exact Except.noConfusion h
  | case5 layer g hle fid rest g2 hsub ih1 ih2 =>
    rw [setLayersO.eq_def, if_neg hle] at h
    simp only [hsub] at h
    have heq2 : ∀ a b, edgeO g2 a b ↔ edgeO g a b := fun a b =>
      (setLayersO_ok_edge_iff hsub a b).trans (bumpLayer_edge_iff ..)
    by_cases h2 : (aget g2 n).layer < (aget g' n).layer
    · obtain ⟨f, hfmem, hfpath⟩ := ih2 h h2
      exact ⟨f, List.mem_cons_of_mem _ hfmem, reflTransGen_edge_congr heq2 hfpath⟩
    · have hg2 : (aget g n).layer < (aget g2 n).layer := by
        have := setLayersO_ok_mono h n
        omega
      by_cases h1 : (aget (bumpLayer g fid layer) n).layer < (aget g2 n).layer
      · obtain ⟨f, hfmem, hfpath⟩ := ih1 hsub h1
        refine ⟨fid, List.mem_cons_self _ _, Relation.ReflTransGen.head hfmem ?_⟩
        exact reflTransGen_edge_congr (fun a b => bumpLayer_edge_iff ..) hfpath
      · have hb : (aget g n).layer < (aget (bumpLayer g fid layer) n).layer := by
          have := setLayersO_ok_mono hsub n
          omega
        obtain ⟨hn, _, _⟩ := bumpLayer_raised hb
        subst hn
        exact ⟨n, List.mem_cons_self _ _, Relation.ReflTransGen.refl⟩
end RvOld

namespace RvOld

/-- After a successful pass, every walk from a listed root is short: the
recursion into a node's providers is taken even when the provider list is
empty, so a walk of `k` edges starting at layer `layer` forces the guard at
`layer + k + 1`. -/
theorem setLayersO_ok_walkBound {entries : List (Option Nat)} {layer : Nat}
    {g g' : Array OFunc} (h : setLayersO entries layer g = .ok g')
    {f : Nat} (hf : some f ∈ entries) :
    ∀ k b, walkTo g f b k → layer + k + 1 ≤ 1000 := by
  induction entries, layer, g using setLayersO.induct generalizing g' f with
  | case1 entries layer g hgt =>
    rw [setLayersO.eq_def, if_pos hgt] at h
    exact Except.noConfusion h
  | case2 layer g hle =>
    exact absurd hf (List.not_mem_nil _)
  | case3 layer g hle tail =>
    rw [setLayersO.eq_def, if_neg hle] at h
    exact Except.noConfusion h
  | case4 layer g hle fid rest e hsub ih =>
    rw [setLayersO.eq_def, if_neg hle] at h
    simp only [hsub] at h
    exact Except.noConfusion h
  | case5 layer g hle fid rest g2 hsub ih1 ih2 =>
    rw [setLayersO.eq_def, if_neg hle] at h
    simp only [hsub] at h
    have heqg1 : ∀ a b, edgeO g a b ↔ edgeO (bumpLayer g fid layer) a b := fun a b =>
      (bumpLayer_edge_iff ..).symm
    have heqg2 : ∀ a b, edgeO g a b ↔ edgeO g2 a b := fun a b =>
      ((setLayersO_ok_edge_iff hsub a b).trans (bumpLayer_edge_iff ..)).symm
    rcases List.mem_cons.mp hf with heq | hmem
    · have hfid : f = fid := Option.some.inj heq
      subst hfid
      intro k b hw
      cases k with
      | zero =>
        have := setLayersO_ok_le hsub
        omega
      | succ k =>
        obtain ⟨c, hc, hw'⟩ := hw
        have := ih1 hsub hc k b (walkTo_congr heqg1 k c b hw')
        omega
    · intro k b hw
      exact ih2 h hmem k b (walkTo_congr heqg2 k f b hw)

/-- On a heap whose provider links are all set, `setLayersO` either succeeds
or reports `ErrCyclicProvideDetected` (the nil-dereference case is
unreachable). -/
theorem setLayersO_ok_or_cyclic {entries : List (Option Nat)} {layer : Nat}
    {g : Array OFunc} (hg : AllSome g) (hent : ∀ e ∈ entries, e ≠ none) :
    (∃ g', setLayersO entries layer g = .ok g') ∨
      setLayersO entries layer g = .error .cyclicProvideDetected := by
  induction entries, layer, g using setLayersO.induct with
  | case1 entries layer g hgt =>
    rw [setLayersO.eq_def, if_pos hgt]
    exact Or.inr rfl
  | case2 layer g hle =>
    rw [setLayersO.eq_def, if_neg hle]
    exact Or.inl ⟨g, rfl⟩
  | case3 layer g hle tail =>
    exact absurd (hent none (List.mem_cons_self _ _)) (fun h => h rfl)
  | case4 layer g hle fid rest e hsub ih =>
    rw [setLayersO.eq_def, if_neg hle]
    simp only [hsub]
    rcases ih (AllSome_bump _ _ _ hg) (hg fid) with ⟨g'', hok⟩ | hcyc
    · rw [hok] at hsub
      exact Except.noConfusion hsub
    · rw [hcyc] at hsub
      cases hsub
      exact Or.inr rfl
  | case5 layer g hle fid rest g2 hsub ih1 ih2 =>
    rw [setLayersO.eq_def, if_neg hle]
    simp only [hsub]
    exact ih2 (AllSome_setLayersO hsub (AllSome_bump _ _ _ hg))
      (fun e he => hent e (List.mem_cons_of_mem _ he))
end RvOld

/-! ## Properties of the first revision's linking phase -/

namespace RvOld

/-- A node with its provider links forgotten (everything the linking phase
leaves alone). -/
def OFunc.eraseProv (f : OFunc) : OFunc :=
  { f with inProvides := [] }

/-- The candidate recorded by the output scan is the previous one or the
scanned provider. -/
theorem scanOutsO_ok_mem {U : TypeUniverse} {asn : Nat → Nat → Bool}
    {t pid : Nat} :
    ∀ {outs : List Nat} {acc : Option Nat} {x : Nat},
      scanOutsO U asn t pid outs acc = .ok (some x) → acc = some x ∨ x = pid := by
  intro outs
  induction outs with
  | nil =>
    intro acc x h
    simp only [scanOutsO] at h
    exact Or.inl (Except.ok.inj h)
  | cons t' rest ih =>
    intro acc x h
    simp only [scanOutsO] at h
    split at h
    · exact ih h
    · split at h
      · exact ih h
      · match acc, h with
        | none, h =>
          rcases ih h with h' | h'
          · exact Or.inr (Option.some.inj h').symm
          · exact Or.inr h'

/-- The candidate recorded by the pool scan is the previous one or a pool
member. -/
theorem linkCandsO_ok_mem {U : TypeUniverse} {asn : Nat → Nat → Bool}
    {g : Array OFunc} {fid t : Nat} :
    ∀ {pool : List Nat} {acc : Option Nat} {x : Nat},
      linkCandsO U asn g fid t pool acc = .ok (some x) → acc = some x ∨ x ∈ pool := by
  intro pool
  induction pool with
  | nil =>
    intro acc x h
    simp only [linkCandsO] at h
    exact Or.inl (Except.ok.inj h)
  | cons p rest ih =>
    intro acc x h
    simp only [linkCandsO] at h
    split at h
    · rcases ih h with h' | h'
      · exact Or.inl h'
      · exact Or.inr (List.mem_cons_of_mem _ h')
    · cases hscan : scanOutsO U asn t p (aget g p).outTypes acc with
      | error e =>
        rw [hscan] at h
        exact Except.noConfusion h
      | ok acc' =>
        rw [hscan] at h
        rcases ih h with h' | h'
        · subst h'
          rcases scanOutsO_ok_mem hscan with h'' | h''
          · exact Or.inl h''
          · exact Or.inr (h'' ▸ List.mem_cons_self _ _)
        · exact Or.inr (List.mem_cons_of_mem _ h')
end RvOld

namespace RvOld

/-- Linking one function changes nothing but that function's provider links
(and preserves their number). -/
theorem linkInputsO_ok_frame {U : TypeUniverse} {asn : Nat → Nat → Bool}
    {fid : Nat} {pool : List Nat} :
    ∀ {types : List Nat} {idx : Nat} {g g' : Array OFunc},
      linkInputsO U asn g fid pool types idx = .ok g' →
        g'.size = g.size ∧ (∀ i, i ≠ fid → aget g' i = aget g i) ∧
          (aget g' fid).eraseProv = (aget g fid).eraseProv ∧
          (aget g' fid).inProvides.length = (aget g fid).inProvides.length := by
  intro types
  induction types with
  | nil =>
    intro idx g g' h
    simp only [linkInputsO] at h
    cases h
    exact ⟨rfl, fun _ _ => rfl, rfl, rfl⟩
  | cons t rest ih =>
    intro idx g g' h
    simp only [linkInputsO] at h
    cases hc : linkCandsO U asn g fid t pool none with
    | error e =>
      rw [hc] at h
      exact Except.noConfusion h
    | ok d =>
      rw [hc] at h
      match d, h with
      | some p, h =>
        obtain ⟨hs, hother, hself, hlen⟩ := ih h
        by_cases hfs : fid < g.size
        · refine ⟨by rw [hs, size_aset], ?_, ?_, ?_⟩
          · intro i hi
            rw [hother i hi, aget_aset_ne _ _ _ _ (fun hh => hi hh.symm)]
          · rw [hself, aget_aset_self _ _ _ hfs]
            rfl
          · rw [hlen, aget_aset_self _ _ _ hfs]
            simp
        · rw [aset_oob _ _ _ hfs] at hs hother hself hlen
          exact ⟨hs, hother, hself, hlen⟩

/-- Provider links produced by linking come from the pool (or were already
present). -/
theorem linkInputsO_ok_links {U : TypeUniverse} {asn : Nat → Nat → Bool}
    {fid : Nat} {pool : List Nat} :
    ∀ {types : List Nat} {idx : Nat} {g g' : Array OFunc},
      linkInputsO U asn g fid pool types idx = .ok g' →
        ∀ i q, some q ∈ (aget g' i).inProvides →
          some q ∈ (aget g i).inProvides ∨ q ∈ pool := by
  intro types
  induction types with
  | nil =>
    intro idx g g' h i q hq
    simp only [linkInputsO] at h
    cases h
    exact Or.inl hq
  | cons t rest ih =>
    intro idx g g' h i q hq
    simp only [linkInputsO] at h
    cases hc : linkCandsO U asn g fid t pool none with
    | error e =>
      rw [hc] at h
      exact Except.noConfusion h
    | ok d =>
      rw [hc] at h
      match d, h with
      | some p, h =>
        have hp : p ∈ pool := by
          rcases linkCandsO_ok_mem hc with h' | h'
          · exact Option.noConfusion h'
          · exact h'
        rcases ih h i q hq with h' | h'
        · by_cases hfs : fid < g.size
          · by_cases hi : i = fid
            · subst hi
              rw [aget_aset_self _ _ _ hfs] at h'
              rcases List.mem_or_eq_of_mem_set h' with h'' | h''
              · exact Or.inl h''
              · exact Or.inr (Option.some.inj h'' ▸ hp)
            · rw [aget_aset_ne _ _ _ _ (fun hh => hi hh.symm)] at h'
              exact Or.inl h'
          · rw [aset_oob _ _ _ hfs] at h'
            exact Or.inl h'
        · exact Or.inr h'
end RvOld

namespace RvOld

/-- Linking from input index `idx` never touches link slots below `idx`. -/
theorem linkInputsO_ok_lower {U : TypeUniverse} {asn : Nat → Nat → Bool}
    {fid : Nat} {pool : List Nat} :
    ∀ {types : List Nat} {idx : Nat} {g g' : Array OFunc},
      linkInputsO U asn g fid pool types idx = .ok g' →
        ∀ j, j < idx →
          (aget g' fid).inProvides.getD j none
            = (aget g fid).inProvides.getD j none := by
  intro types
  induction types with
  | nil =>
    intro idx g g' h j hj
    simp only [linkInputsO] at h
    cases h
    rfl
  | cons t rest ih =>
    intro idx g g' h j hj
    simp only [linkInputsO] at h
    cases hc : linkCandsO U asn g fid t pool none with
    | error e =>
      rw [hc] at h
      exact Except.noConfusion h
    | ok d =>
      rw [hc] at h
      match d, h with
      | some p, h =>
        have hrec := ih h j (Nat.lt_succ_of_lt hj)
        rw [hrec]
        by_cases hfs : fid < g.size
        · rw [aget_aset_self _ _ _ hfs]
          simp [List.getD_eq_getElem?_getD,
            List.getElem?_set_ne (Nat.ne_of_gt hj)]
        · rw [aset_oob _ _ _ hfs]

/-- After linking the whole input list from index `idx`, every link slot
covered by the list is set. -/
theorem linkInputsO_ok_set {U : TypeUniverse} {asn : Nat → Nat → Bool}
    {fid : Nat} {pool : List Nat} :
    ∀ {types : List Nat} {idx : Nat} {g g' : Array OFunc},
      linkInputsO U asn g fid pool types idx = .ok g' →
        ∀ j, idx ≤ j → j < idx + types.length →
          j < (aget g fid).inProvides.length →
          (aget g' fid).inProvides.getD j none ≠ none := by
  intro types
  induction types with
  | nil =>
    intro idx g g' h j hj1 hj2 _
    simp only [List.length_nil] at hj2
    omega
  | cons t rest ih =>
    intro idx g g' h j hj1 hj2 hj3
    simp only [linkInputsO] at h
    cases hc : linkCandsO U asn g fid t pool none with
    | error e =>
      rw [hc] at h
      exact Except.noConfusion h
    | ok d =>
      rw [hc] at h
      match d, h with
      | some p, h =>
        have h2 : linkInputsO U asn
            (aset g fid
              { aget g fid with
                inProvides := (aget g fid).inProvides.set idx (some p) })
            fid pool rest (idx + 1) = .ok g' := h
        by_cases hfs : fid < g.size
        · rcases Nat.eq_or_lt_of_le hj1 with heq | hlt
          · have hlow := linkInputsO_ok_lower h2 j (by omega)
            rw [hlow, aget_aset_self _ _ _ hfs]
            have hset : ((aget g fid).inProvides.set idx (some p)).getD j none
                = some p := by
              subst heq
              simp [List.getD_eq_getElem?_getD, List.getElem?_set_self', hj3]
            rw [hset]
            exact fun hh => Option.noConfusion hh
          · refine ih h2 j hlt (by simp only [List.length_cons] at hj2; omega) ?_
            rw [aget_aset_self _ _ _ hfs]
            simpa using hj3
        · rw [aset_oob _ _ _ hfs] at h2
          exfalso
          have hlen0 : (aget g fid).inProvides.length = 0 := by
            unfold aget
            rw [Array.getElem?_len_le _ (Nat.le_of_not_lt hfs)]
            rfl
          omega

end RvOld

namespace RvOld

/-- Linking the whole function list preserves everything except provider
links, and preserves their number. -/
theorem linkAllO_ok_frame {U : TypeUniverse} {asn : Nat → Nat → Bool}
    {pool : List Nat} :
    ∀ {funcs : List Nat} {g g' : Array OFunc},
      linkAllO U asn g pool funcs = .ok g' →
        g'.size = g.size ∧
          ∀ i, (aget g' i).eraseProv = (aget g i).eraseProv ∧
            (aget g' i).inProvides.length = (aget g i).inProvides.length := by
  intro funcs
  induction funcs with
  | nil =>
    intro g g' h
    simp only [linkAllO] at h
    cases h
    exact ⟨rfl, fun _ => ⟨rfl, rfl⟩⟩
  | cons f rest ih =>
    intro g g' h
    simp only [linkAllO] at h
    cases hc : linkProvidesO U asn g f pool with
    | error e =>
      rw [hc] at h
      exact Except.noConfusion h
    | ok g1 =>
      rw [hc] at h
      obtain ⟨hs2, hrest⟩ := ih h
      obtain ⟨hs1, hother, hself, hlen⟩ := linkInputsO_ok_frame hc
      refine ⟨by rw [hs2, hs1], fun i => ?_⟩
      obtain ⟨he2, hl2⟩ := hrest i
      by_cases hi : i = f
      · subst hi
        exact ⟨by rw [he2, hself], by rw [hl2, hlen]⟩
      · exact ⟨by rw [he2, hother i hi], by rw [hl2, hother i hi]⟩

/-- Provider links produced by the linking phase come from the pool (or were
already present). -/
theorem linkAllO_ok_links {U : TypeUniverse} {asn : Nat → Nat → Bool}
    {pool : List Nat} :
    ∀ {funcs : List Nat} {g g' : Array OFunc},
      linkAllO U asn g pool funcs = .ok g' →
        ∀ i q, some q ∈ (aget g' i).inProvides →
          some q ∈ (aget g i).inProvides ∨ q ∈ pool := by
  intro funcs
  induction funcs with
  | nil =>
    intro g g' h i q hq
    simp only [linkAllO] at h
    cases h
    exact Or.inl hq
  | cons f rest ih =>
    intro g g' h i q hq
    simp only [linkAllO] at h
    cases hc : linkProvidesO U asn g f pool with
    | error e =>
      rw [hc] at h
      exact Except.noConfusion h
    | ok g1 =>
      rw [hc] at h
      rcases ih h i q hq with h' | h'
      · exact linkInputsO_ok_links hc i q h'
      · exact Or.inr h'

/-- A function not in the list is untouched by the linking phase. -/
theorem linkAllO_ok_notin {U : TypeUniverse} {asn : Nat → Nat → Bool}
    {pool : List Nat} :
    ∀ {funcs : List Nat} {g g' : Array OFunc},
      linkAllO U asn g pool funcs = .ok g' →
        ∀ i, i ∉ funcs → aget g' i = aget g i := by
  intro funcs
  induction funcs with
  | nil =>
    intro g g' h i _
    simp only [linkAllO] at h
    cases h
    rfl
  | cons f rest ih =>
    intro g g' h i hi
    simp only [linkAllO] at h
    cases hc : linkProvidesO U asn g f pool with
    | error e =>
      rw [hc] at h
      exact Except.noConfusion h
    | ok g1 =>
      rw [hc] at h
      rw [ih h i (fun hh => hi (List.mem_cons_of_mem _ hh)),
        (linkInputsO_ok_frame hc).2.1 i (fun hh => hi (hh ▸ List.mem_cons_self _ _))]

/-- After the linking phase succeeds, every provider link of every listed
function is set (given each function has no more link slots than inputs,
as built by the node parser). -/
theorem linkAllO_ok_allSome {U : TypeUniverse} {asn : Nat → Nat → Bool}
    {pool : List Nat} :
    ∀ {funcs : List Nat} {g g' : Array OFunc},
      linkAllO U asn g pool funcs = .ok g' →
        (∀ i, (aget g i).inProvides.length ≤ (aget g i).inTypes.length) →
        ∀ fid ∈ funcs, ∀ e ∈ (aget g' fid).inProvides, e ≠ none := by
  intro funcs
  induction funcs with
  | nil =>
    intro g g' h hlen fid hfid
    exact absurd hfid (List.not_mem_nil _)
  | cons f rest ih =>
    intro g g' h hlen fid hfid
    simp only [linkAllO] at h
    cases hc : linkProvidesO U asn g f pool with
    | error e =>
      rw [hc] at h
      exact Except.noConfusion h
    | ok g1 =>
      rw [hc] at h
      have hlen1 : ∀ i, (aget g1 i).inProvides.length ≤ (aget g1 i).inTypes.length := by
        intro i
        have hfr := linkInputsO_ok_frame hc
        have hty : (aget g1 i).inTypes = (aget g i).inTypes := by
          by_cases hi : i = f
          · subst hi
            have hh := congrArg OFunc.inTypes hfr.2.2.1
            exact hh
          · rw [hfr.2.1 i hi]
        by_cases hi : i = f
        · subst hi
          rw [hty, hfr.2.2.2]
          exact hlen i
        · rw [hty, hfr.2.1 i hi]
          exact hlen i
      by_cases hmem : fid ∈ rest
      · exact ih h hlen1 fid hmem
      · have hf : fid = f := by
          rcases List.mem_cons.mp hfid with h' | h'
          · exact h'
          · exact absurd h' hmem
        subst hf
        rw [linkAllO_ok_notin h fid hmem]
        intro e he
        obtain ⟨j, hj, rfl⟩ := List.mem_iff_getElem.mp he
        have hj3 : j < (aget g fid).inProvides.length := by
          have := (linkInputsO_ok_frame hc).2.2.2
          omega
        have hset := linkInputsO_ok_set hc j (Nat.zero_le _)
          (by
            have := hlen fid
            omega) hj3
        rwa [List.getD_eq_getElem?_getD, List.getElem?_eq_getElem hj] at hset
end RvOld

namespace RvOld

theorem aget_oob {α : Type} [Inhabited α] (g : Array α) (i : Nat)
    (h : ¬ i < g.size) : aget g i = default := by
  unfold aget
  rw [Array.getElem?_len_le _ (Nat.le_of_not_lt h)]
  rfl

theorem forall_aget {α : Type} [Inhabited α] (g : Array α) (P : α → Prop)
    (hP : ∀ i, i < g.size → P (aget g i)) (hd : P default) :
    ∀ i, P (aget g i) := by
  intro i
  by_cases h : i < g.size
  · exact hP i h
  · rw [aget_oob g i h]
    exact hd

/-- Well-formedness of a parsed revolver state, as guaranteed by the option
layer: invoke and provide indices address the heap, the heap holds exactly
the registered functions, every function has at most one (pre-allocated)
provider-link slot per input, Go's zero values give layer 0, and all links
are nil before linking. -/
structure OWF (gr : OGraph) : Prop where
  inv_bound : ∀ r ∈ gr.invokes, r < gr.funcs.size
  prov_bound : ∀ p ∈ gr.provides, p < gr.funcs.size
  covered : ∀ i, i < gr.funcs.size → i ∈ gr.invokes ++ gr.provides
  len_le : ∀ i, (aget gr.funcs i).inProvides.length ≤ (aget gr.funcs i).inTypes.length
  layer0 : ∀ i, (aget gr.funcs i).layer = 0
  links0 : ∀ i, ∀ e ∈ (aget gr.funcs i).inProvides, e = none

/-- The linked heap inherits in-range links, fully-set links and zero layers
from a well-formed parsed state. -/
theorem linked_facts {U : TypeUniverse} {asn : Nat → Nat → Bool} {gr : OGraph}
    {g1 : Array OFunc} (hwf : OWF gr)
    (hlink : linkAllO U asn gr.funcs gr.provides (gr.invokes ++ gr.provides) = .ok g1) :
    WFlinks g1 ∧ AllSome g1 ∧ (∀ i, (aget g1 i).layer = 0) ∧ g1.size = gr.funcs.size := by
  have hsize : g1.size = gr.funcs.size := (linkAllO_ok_frame hlink).1
  refine ⟨?_, ?_, ?_, hsize⟩
  · intro i q hq
    rcases linkAllO_ok_links hlink i q hq with h' | h'
    · exact absurd (hwf.links0 i _ h') (fun hh => Option.noConfusion hh)
    · rw [hsize]
      exact hwf.prov_bound q h'
  · intro i e he
    by_cases hi : i < gr.funcs.size
    · exact linkAllO_ok_allSome hlink hwf.len_le i (hwf.covered i hi) e he
    · rw [aget_oob g1 i (by rw [hsize]; exact hi)] at he
      exact absurd he (List.not_mem_nil _)
  · intro i
    have hh := congrArg OFunc.layer ((linkAllO_ok_frame hlink).2 i).1
    have hh2 : (aget g1 i).layer = (aget gr.funcs i).layer := hh
    rw [hh2]
    exact hwf.layer0 i

/-- On a linked well-formed heap whose demand-reachable subgraph contains a
cycle, the layer pass reports `ErrCyclicProvideDetected`. -/
theorem setLayers_cyclic_error {gr : OGraph} {g1 : Array OFunc}
    (hwfl : WFlinks g1) (hall : AllSome g1) (hl0 : ∀ i, (aget g1 i).layer = 0)
    (hsz : g1.size = gr.funcs.size)
    {r c p : Nat} (hr : r ∈ gr.invokes) (hrb : r < gr.funcs.size)
    (hreach : Relation.ReflTransGen (edgeO g1) r c)
    (hedge : edgeO g1 c p) (hcyc : Relation.ReflTransGen (edgeO g1) p c) :
    setLayersO (gr.invokes.map some) 1 g1 = .error .cyclicProvideDetected := by
  rcases @setLayersO_ok_or_cyclic (gr.invokes.map some) 1 g1 hall (by simp)
    with ⟨g', hok⟩ | hcyc'
  · exfalso
    have hroot : 1 ≤ (aget g' r).layer :=
      setLayersO_ok_root hok (List.mem_map_of_mem _ hr) (by omega)
    have hchain : ∀ a b, Relation.ReflTransGen (edgeO g1) a b →
        0 < (aget g' a).layer →
        0 < (aget g' b).layer ∧ (aget g' a).layer ≤ (aget g' b).layer := by
      intro a b hab
      induction hab with
      | refl => exact fun h => ⟨h, Nat.le_refl _⟩
      | tail _ hstep ih =>
        intro ha
        obtain ⟨hm, hle⟩ := ih ha
        have hlt := setLayersO_ok_edgeRaise hwfl hok hstep (by
          rw [hl0]
          exact hm)
        exact ⟨Nat.lt_of_le_of_lt (Nat.zero_le _) hlt,
          Nat.le_trans hle (Nat.le_of_lt hlt)⟩
    have hrpos : 0 < (aget g' r).layer := by omega
    obtain ⟨hcpos, _⟩ := hchain r c hreach hrpos
    have hcp : (aget g' c).layer < (aget g' p).layer :=
      setLayersO_ok_edgeRaise hwfl hok hedge (by
        rw [hl0]
        exact hcpos)
    have hppos : 0 < (aget g' p).layer := by omega
    obtain ⟨_, hpc⟩ := hchain p c hcyc hppos
    omega
  · exact hcyc'
end RvOld

/-! ## Claim C1: cycle detection -/

/-- C1: for every set of options whose demand-reachable provider subgraph
(providers transitively required by some invoke via input-to-producer links)
contains a cycle, Revolve returns an error matching
`ErrCyclicProvideDetected`.

First conjunct (first revision, `src/revolver.go`): whenever linking
succeeds — so the input-to-producer links the claim quantifies over exist —
dry-run is off (the dry-run interplay is claim C5's subject), and a cycle
`c → p →* c` is reachable from an invoke root `r`, `resolve` reports
`ErrCyclicProvideDetected` through its `setLayers` pass (lines 81-84,
151-164).  Second conjunct (second revision, `src/function.go` lines
141-156, "structural via state"): argument collection fails with
`ErrCyclicProvideDetected` whenever some linked provider has not yet reached
`StateCalled`. -/
theorem revolve_cyclic_provide_detected :
    (∀ (U : TypeUniverse) (gr : RvOld.OGraph) (fl : RvOld.Flags)
      (g1 : Array RvOld.OFunc) (r c p : Nat),
      RvOld.OWF gr →
      RvOld.linkAllO U (RvOld.assignableOf U fl) gr.funcs gr.provides
        (gr.invokes ++ gr.provides) = .ok g1 →
      fl.dryRun = false →
      r ∈ gr.invokes →
      Relation.ReflTransGen (RvOld.edgeO g1) r c →
      RvOld.edgeO g1 c p →
      Relation.ReflTransGen (RvOld.edgeO g1) p c →
      (RvOld.resolveO U gr fl).1 = some .cyclicProvideDetected)
    ∧ (∀ (g : Array RvNew.Function) (ins : List RvNew.Input),
      (∀ i ∈ ins, i.provider ≠ none) →
      (∀ i ∈ ins, ∀ pid, i.provider = some pid →
        i.outputIndex < (aget g pid).outputs.length) →
      (∃ i ∈ ins, ∃ pid, i.provider = some pid ∧ (aget g pid).state ≠ .called) →
      RvNew.collectArgsValues g ins = .error .cyclicProvideDetected) := by
  constructor
  · intro U gr fl g1 r c p hwf hlink hdry hr hreach hedge hcyc
    obtain ⟨hwfl, hall, hl0, hsz⟩ := RvOld.linked_facts hwf hlink
    have hcy := RvOld.setLayers_cyclic_error hwfl hall hl0 hsz hr
      (hwf.inv_bound r hr) hreach hedge hcyc
    unfold RvOld.resolveO
    rw [hlink, hdry]
    simp [hcy]
  · intro g ins hprov hidx hex
    induction ins with
    | nil =>
      obtain ⟨i, hi, _⟩ := hex
      exact absurd hi (List.not_mem_nil _)
    | cons i rest ih =>
      cases hp : i.provider with
      | none => exact absurd hp (hprov i (List.mem_cons_self _ _))
      | some pid =>
        simp only [RvNew.collectArgsValues, hp]
        by_cases hst : (aget g pid).state = .called
        · rw [if_neg (by
            rw [FnState.toNat_lt_called_iff]
            simp [hst])]
          rw [if_neg (Nat.not_le_of_lt (hidx i (List.mem_cons_self _ _) pid hp))]
          have hrest : RvNew.collectArgsValues g rest = .error .cyclicProvideDetected := by
            apply ih
            · exact fun j hj => hprov j (List.mem_cons_of_mem _ hj)
            · exact fun j hj => hidx j (List.mem_cons_of_mem _ hj)
            · obtain ⟨j, hj, pj, hpj, hstj⟩ := hex
              rcases List.mem_cons.mp hj with rfl | hjr
              · rw [hp] at hpj
                cases Option.some.inj hpj
                exact absurd hst hstj
              · exact ⟨j, hjr, pj, hpj, hstj⟩
          rw [hrest]
        · rw [if_pos (by
            rw [FnState.toNat_lt_called_iff]
            exact hst)]

/-- A small type universe for concrete runs: no structural conformance, the
error interface is descriptor 99. -/
def egoU : TypeUniverse :=
  { assignableTo := fun _ _ => false, isError := fun t => t == 99 }

/-- A parsed state with a demand-reachable cycle: the invoke (node 0) needs
type 1; node 1 produces type 1 from type 2; node 2 produces type 2 from
type 1. -/
def cycGr : RvOld.OGraph where
  funcs := #[{ inTypes := [1], inProvides := [none] },
    { inTypes := [2], inProvides := [none], outTypes := [1] },
    { inTypes := [1], inProvides := [none], outTypes := [2] }]
  invokes := [0]
  provides := [1, 2]

/-- `cycGr` after linking: 0 → 1 → 2 → 1. -/
def cycLinked : Array RvOld.OFunc :=
  #[{ inTypes := [1], inProvides := [some 1] },
    { inTypes := [2], inProvides := [some 2], outTypes := [1] },
    { inTypes := [1], inProvides := [some 1], outTypes := [2] }]

theorem cycGr_wf : RvOld.OWF cycGr := by
  refine ⟨by decide, by decide, by decide, ?_, ?_, ?_⟩
  · refine RvOld.forall_aget cycGr.funcs (fun f : RvOld.OFunc => f.inProvides.length ≤ f.inTypes.length)
      (fun i hi => ?_) (by decide)
    have h3 : i < 3 := by simpa [cycGr] using hi
    interval_cases i <;> decide
  · refine RvOld.forall_aget cycGr.funcs (fun f : RvOld.OFunc => f.layer = 0)
      (fun i hi => ?_) (by decide)
    have h3 : i < 3 := by simpa [cycGr] using hi
    interval_cases i <;> decide
  · refine RvOld.forall_aget cycGr.funcs (fun f : RvOld.OFunc => ∀ e ∈ f.inProvides, e = none)
      (fun i hi => ?_) (by decide)
    have h3 : i < 3 := by simpa [cycGr] using hi
    interval_cases i <;> decide

/-- A one-node second-revision heap whose single provider has only been
linked, not called, together with an input linked to it. -/
def oneLinkedG : Array RvNew.Function :=
  #[{ state := .linked, outputs := [{ typ := 5 }] }]

def oneIns : List RvNew.Input :=
  [{ typ := 5, provider := some 0 }]

theorem revolve_cyclic_provide_detected_witness :
    RvOld.OWF cycGr
    ∧ RvOld.linkAllO egoU (RvOld.assignableOf egoU {}) cycGr.funcs cycGr.provides
        (cycGr.invokes ++ cycGr.provides) = .ok cycLinked
    ∧ ({} : RvOld.Flags).dryRun = false
    ∧ 0 ∈ cycGr.invokes
    ∧ Relation.ReflTransGen (RvOld.edgeO cycLinked) 0 1
    ∧ RvOld.edgeO cycLinked 1 2
    ∧ Relation.ReflTransGen (RvOld.edgeO cycLinked) 2 1
    ∧ (RvOld.resolveO egoU cycGr {}).1 = some .cyclicProvideDetected
    ∧ (∀ i ∈ oneIns, i.provider ≠ none)
    ∧ (∃ i ∈ oneIns, ∃ pid, i.provider = some pid
        ∧ (aget oneLinkedG pid).state ≠ .called)
    ∧ RvNew.collectArgsValues oneLinkedG oneIns = .error .cyclicProvideDetected := by
  have h01 : RvOld.edgeO cycLinked 0 1 := by decide
  have h12 : RvOld.edgeO cycLinked 1 2 := by decide
  have h21 : RvOld.edgeO cycLinked 2 1 := by decide
  have hlink : RvOld.linkAllO egoU (RvOld.assignableOf egoU {}) cycGr.funcs
      cycGr.provides (cycGr.invokes ++ cycGr.provides) = .ok cycLinked := rfl
  have hprov : ∀ i ∈ oneIns, i.provider ≠ none := by decide
  have hidx : ∀ i ∈ oneIns, ∀ pid, i.provider = some pid →
      i.outputIndex < (aget oneLinkedG pid).outputs.length := by
    intro i hi pid hpid
    simp only [oneIns, List.mem_singleton] at hi
    subst hi
    obtain rfl : pid = 0 := (Option.some.inj hpid).symm
    decide
  have hex : ∃ i ∈ oneIns, ∃ pid, i.provider = some pid
      ∧ (aget oneLinkedG pid).state ≠ .called :=
    ⟨{ typ := 5, provider := some 0 }, by decide, 0, rfl, by decide⟩
  refine ⟨cycGr_wf, hlink, rfl, by decide, .single h01, h12, .single h21, ?_,
    hprov, hex, ?_⟩
  · exact revolve_cyclic_provide_detected.1 egoU cycGr {} cycLinked 0 1 2
      cycGr_wf hlink rfl (by decide) (.single h01) h12 (.single h21)
  · exact revolve_cyclic_provide_detected.2 oneLinkedG oneIns hprov hidx hex

/-! ## Claim C10: the `setLayers` depth guard -/

/-- One node of an already-linked chain heap: node `i` requires node `i + 1`
(when it exists) and provides type `i`. -/
def chainNode (n i : Nat) : RvOld.OFunc :=
  if i + 1 < n then { inTypes := [i + 1], inProvides := [some (i + 1)], outTypes := [i] }
  else { inTypes := [], inProvides := [], outTypes := [i] }

/-- An already-linked chain heap of `n` nodes. -/
def chainG (n : Nat) : Array RvOld.OFunc :=
  Array.ofFn (fun i : Fin n => chainNode n i.val)

theorem chainG_size (n : Nat) : (chainG n).size = n := by
  simp [chainG]

theorem chainNode_inProvides (n i : Nat) :
    (chainNode n i).inProvides = if i + 1 < n then [some (i + 1)] else [] := by
  unfold chainNode
  split <;> rfl

theorem aget_chainG {n i : Nat} (h : i < n) :
    aget (chainG n) i = chainNode n i := by
  unfold aget
  rw [Array.getElem?_eq_getElem (by
    rw [chainG_size]
    exact h)]
  simp [chainG]

theorem chainG_edge {n c p : Nat} (h : RvOld.edgeO (chainG n) c p) :
    c + 1 < n ∧ p = c + 1 := by
  unfold RvOld.edgeO at h
  by_cases hc : c < n
  · rw [aget_chainG hc, chainNode_inProvides] at h
    by_cases hc1 : c + 1 < n
    · rw [if_pos hc1] at h
      rw [List.mem_singleton] at h
      exact ⟨hc1, (Option.some.inj h.symm).symm⟩
    · rw [if_neg hc1] at h
      exact absurd h (List.not_mem_nil _)
  · rw [RvOld.aget_oob _ _ (by
      rw [chainG_size]
      exact hc)] at h
    exact absurd h (List.not_mem_nil _)

theorem chainG_allSome (n : Nat) : RvOld.AllSome (chainG n) := by
  intro i e he
  by_cases hi : i < n
  · rw [aget_chainG hi, chainNode_inProvides] at he
    by_cases hi1 : i + 1 < n
    · rw [if_pos hi1, List.mem_singleton] at he
      subst he
      exact fun hh => Option.noConfusion hh
    · rw [if_neg hi1] at he
      exact absurd he (List.not_mem_nil _)
  · rw [RvOld.aget_oob _ _ (by
      rw [chainG_size]
      exact hi)] at he
    exact absurd he (List.not_mem_nil _)

theorem chainG_walk (n : Nat) : ∀ k j, j + k < n → RvOld.walkTo (chainG n) j (j + k) k := by
  intro k
  induction k with
  | zero =>
    intro j _
    simp [RvOld.walkTo]
  | succ k ih =>
    intro j h
    refine ⟨j + 1, ?_, ?_⟩
    · unfold RvOld.edgeO
      rw [aget_chainG (by omega), chainNode_inProvides]
      rw [if_pos (by omega)]
      exact List.mem_singleton.mpr rfl
    · have hh := ih (j + 1) (by omega)
      have harith : j + 1 + k = j + (k + 1) := by omega
      rwa [harith] at hh

theorem cycLinked_walk_even : ∀ m, RvOld.walkTo cycLinked 1 1 (2 * m) := by
  intro m
  induction m with
  | zero => simp [RvOld.walkTo]
  | succ m ih =>
    rw [show 2 * (m + 1) = 2 * m + 1 + 1 by omega]
    exact ⟨2, by decide, 1, by decide, ih⟩

theorem cycLinked_walk999 : RvOld.walkTo cycLinked 0 1 999 := by
  refine ⟨1, by decide, ?_⟩
  have hh := cycLinked_walk_even 499
  norm_num at hh
  exact hh

/-- C10: `setLayers` terminates on every provider graph, including cyclic
ones, because it aborts with `ErrCyclicProvideDetected` as soon as the layer
counter exceeds 1000 (`src/revolver.go` lines 151-153); consequently a deep
dependency chain — even a fully acyclic one — makes `Revolve` report
`ErrCyclicProvideDetected` (lines 81-84).

First conjunct: on any linked well-formed state carrying a provider walk of
`k ≥ 999` edges from an invoke root, `resolve` reports
`ErrCyclicProvideDetected` (the walk forces the recursion to enter layer
`k + 2 > 1000`; the guard is tested even before an empty provider list, so
999 edges — a chain 1000 layers deep — already suffice, a fortiori any chain
deeper than 1000 layers).  Second conjunct: the acyclic chain family
`chainG n` (every edge strictly increases the node index, so no cycle
exists) trips the layer pass whenever `n ≥ 1000`.  Third conjunct: on the
concrete cyclic heap `cycLinked` the layer pass terminates with
`ErrCyclicProvideDetected` (in the embedding `setLayersO` is total by
construction, mirroring the termination the guard gives the Go recursion). -/
theorem setLayers_depth_guard :
    (∀ (U : TypeUniverse) (gr : RvOld.OGraph) (fl : RvOld.Flags)
      (g1 : Array RvOld.OFunc) (r b k : Nat),
      RvOld.OWF gr →
      RvOld.linkAllO U (RvOld.assignableOf U fl) gr.funcs gr.provides
        (gr.invokes ++ gr.provides) = .ok g1 →
      fl.dryRun = false →
      r ∈ gr.invokes →
      RvOld.walkTo g1 r b k →
      999 ≤ k →
      (RvOld.resolveO U gr fl).1 = some .cyclicProvideDetected)
    ∧ (∀ n, 1000 ≤ n →
      (∀ c p, RvOld.edgeO (chainG n) c p → p = c + 1)
      ∧ RvOld.setLayersO [some 0] 1 (chainG n) = .error .cyclicProvideDetected)
    ∧ RvOld.setLayersO (cycGr.invokes.map some) 1 cycLinked
      = .error .cyclicProvideDetected := by
  refine ⟨?_, ?_, ?_⟩
  · intro U gr fl g1 r b k hwf hlink hdry hr hwalk hk
    obtain ⟨hwfl, hall, hl0, hsz⟩ := RvOld.linked_facts hwf hlink
    have hsl : RvOld.setLayersO (gr.invokes.map some) 1 g1
        = .error .cyclicProvideDetected := by
      rcases @RvOld.setLayersO_ok_or_cyclic (gr.invokes.map some) 1 g1 hall (by simp)
        with ⟨g', hok⟩ | hcyc
      · exfalso
        have := RvOld.setLayersO_ok_walkBound hok (List.mem_map_of_mem _ hr) k b hwalk
        omega
      · exact hcyc
    unfold RvOld.resolveO
    rw [hlink, hdry]
    simp [hsl]
  · intro n hn
    refine ⟨fun c p h => (chainG_edge h).2, ?_⟩
    rcases @RvOld.setLayersO_ok_or_cyclic [some 0] 1 (chainG n) (chainG_allSome n)
        (by simp) with ⟨g', hok⟩ | hcyc
    · exfalso
      have hwalk := chainG_walk n (n - 1) 0 (by omega)
      rw [show 0 + (n - 1) = n - 1 by omega] at hwalk
      have := RvOld.setLayersO_ok_walkBound hok (List.mem_singleton.mpr rfl)
        (n - 1) (n - 1) hwalk
      omega
    · exact hcyc
  · have hall : RvOld.AllSome cycLinked := by
      refine RvOld.forall_aget cycLinked
        (fun f : RvOld.OFunc => ∀ e ∈ f.inProvides, e ≠ none)
        (fun i hi => ?_) (by decide)
      have h3 : i < 3 := by simpa [cycLinked] using hi
      interval_cases i <;> decide
    rcases @RvOld.setLayersO_ok_or_cyclic (cycGr.invokes.map some) 1 cycLinked
        hall (by decide) with ⟨g', hok⟩ | hcyc
    · exfalso
      have := RvOld.setLayersO_ok_walkBound hok (by decide) 999 1 cycLinked_walk999
      omega
    · exact hcyc

theorem setLayers_depth_guard_witness :
    RvOld.OWF cycGr
    ∧ RvOld.linkAllO egoU (RvOld.assignableOf egoU {}) cycGr.funcs cycGr.provides
        (cycGr.invokes ++ cycGr.provides) = .ok cycLinked
    ∧ 0 ∈ cycGr.invokes
    ∧ RvOld.walkTo cycLinked 0 1 999
    ∧ 999 ≤ 999
    ∧ (RvOld.resolveO egoU cycGr {}).1 = some .cyclicProvideDetected
    ∧ 1000 ≤ 1001
    ∧ (∀ c p, RvOld.edgeO (chainG 1001) c p → p = c + 1)
    ∧ RvOld.setLayersO [some 0] 1 (chainG 1001) = .error .cyclicProvideDetected := by
  refine ⟨cycGr_wf, rfl, by decide, cycLinked_walk999, by omega, ?_, by omega, ?_, ?_⟩
  · exact setLayers_depth_guard.1 egoU cycGr {} cycLinked 0 1 999 cycGr_wf rfl rfl
      (by decide) cycLinked_walk999 (by omega)
  · exact (setLayers_depth_guard.2.1 1001 (by omega)).1
  · exact (setLayers_depth_guard.2.1 1001 (by omega)).2

/-! ## Claim C5: dry-run and validation -/

/-- Counterexample to C5 as stated: an option set whose linked provider
graph contains a demand-reachable cycle (`cycGr`, links `0 → 1 ⇄ 2`).  With
dry-run enabled, `resolve` returns nil right after linking
(`src/revolver.go` lines 77-79) — cycle detection does **not** fire — while
the same options without dry-run report `ErrCyclicProvideDetected`. -/
theorem dryRun_cycle_counterexample :
    RvOld.resolveO egoU cycGr { dryRun := true } = (none, [])
    ∧ (RvOld.resolveO egoU cycGr { dryRun := false }).1
      = some GoErr.cyclicProvideDetected
    ∧ RvOld.edgeO cycLinked 1 2
    ∧ Relation.ReflTransGen (RvOld.edgeO cycLinked) 2 1
    ∧ Relation.ReflTransGen (RvOld.edgeO cycLinked) 0 1 := by
  have h01 : RvOld.edgeO cycLinked 0 1 := by decide
  have h12 : RvOld.edgeO cycLinked 1 2 := by decide
  have h21 : RvOld.edgeO cycLinked 2 1 := by decide
  have hlink : RvOld.linkAllO egoU
      (RvOld.assignableOf egoU { dryRun := false, duckTyping := false }) cycGr.funcs
      cycGr.provides (cycGr.invokes ++ cycGr.provides) = .ok cycLinked := rfl
  refine ⟨rfl, ?_, h12, .single h21, .single h01⟩
  obtain ⟨hwfl, hall, hl0, hsz⟩ := RvOld.linked_facts cycGr_wf hlink
  have hcy := RvOld.setLayers_cyclic_error hwfl hall hl0 hsz
    (show 0 ∈ cycGr.invokes by decide) (cycGr_wf.inv_bound 0 (by decide))
    (.single h01) h12 (.single h21)
  unfold RvOld.resolveO
  rw [hlink]
  simp [hcy]

/-- C5 amended: enabling dry-run leaves the linking outcome (and the
assignability predicate, hence `MultipleProvide` / `CannotProvideValue`
errors) unchanged, and input validation happens at option application
before any of this; but under dry-run `resolve` returns immediately after
linking, so layer assignment — and with it cycle detection — and execution
are skipped: a link error surfaces identically, and any successfully linked
option set (cyclic or not) yields nil. -/
theorem dryRun_validation_outcome (U : TypeUniverse) (gr : RvOld.OGraph) (d : Bool) :
    (∀ e, RvOld.linkAllO U (RvOld.assignableOf U { dryRun := true, duckTyping := d })
        gr.funcs gr.provides (gr.invokes ++ gr.provides) = .error e →
      RvOld.resolveO U gr { dryRun := true, duckTyping := d } = (some e, []))
    ∧ (∀ g1, RvOld.linkAllO U (RvOld.assignableOf U { dryRun := true, duckTyping := d })
        gr.funcs gr.provides (gr.invokes ++ gr.provides) = .ok g1 →
      RvOld.resolveO U gr { dryRun := true, duckTyping := d } = (none, []))
    ∧ (∀ d', RvOld.assignableOf U { dryRun := true, duckTyping := d }
        = RvOld.assignableOf U { dryRun := d', duckTyping := d }) := by
  refine ⟨?_, ?_, fun _ => rfl⟩
  · intro e he
    unfold RvOld.resolveO
    rw [he]
  · intro g1 hg1
    unfold RvOld.resolveO
    rw [hg1]
    rfl

theorem dryRun_validation_outcome_witness :
    RvOld.linkAllO egoU (RvOld.assignableOf egoU { dryRun := true, duckTyping := false })
      cycGr.funcs cycGr.provides (cycGr.invokes ++ cycGr.provides) = .ok cycLinked
    ∧ RvOld.resolveO egoU cycGr { dryRun := true, duckTyping := false } = (none, []) :=
  ⟨rfl, (dryRun_validation_outcome egoU cycGr false).2.1 cycLinked rfl⟩

/-! ## Claim C7: laziness -/

namespace RvOld

/-- `callO` never changes a layer. -/
theorem callO_layers (U : TypeUniverse) (g : Array OFunc) (fid : Nat)
    (args : List Val) (i : Nat) :
    (aget (callO U g fid args).1 i).layer = (aget g i).layer := by
  unfold callO
  split
  · rfl
  · cases hs : splitValsO U ((aget g fid).target args) with
    | error e =>
      simp only [hs]
    | ok outs =>
      simp only [hs]
      by_cases hfs : fid < g.size
      · by_cases hi : i = fid
        · subst hi
          rw [aget_aset_self _ _ _ hfs]
        · rw [aget_aset_ne _ _ _ _ (fun hh => hi hh.symm)]
      · rw [aset_oob _ _ _ hfs]

/-- Everything the execution loop invokes was in the starting log or is a
listed function with a non-zero layer (the loop's `fn.layer == 0` guard,
`src/revolver.go` lines 96-98). -/
theorem execLoop_called_sub (U : TypeUniverse) (asn : Nat → Nat → Bool) :
    ∀ (order : List Nat) (g : Array OFunc) (log : List Nat) (x : Nat),
      x ∈ (execLoop U asn order g log).called →
        x ∈ log ∨ (x ∈ order ∧ (aget g x).layer ≠ 0) := by
  intro order
  induction order with
  | nil =>
    intro g log x hx
    exact Or.inl hx
  | cons fid rest ih =>
    intro g log x hx
    simp only [execLoop] at hx
    split at hx
    · rcases ih g log x hx with h' | ⟨h1, h2⟩
      · exact Or.inl h'
      · exact Or.inr ⟨List.mem_cons_of_mem _ h1, h2⟩
    · next hlay =>
      cases hcol : collectArgsO asn g fid with
      | error e =>
        simp only [hcol] at hx
        exact Or.inl hx
      | ok args =>
        rcases hcall : callO U g fid args with ⟨g', inv, err⟩
        cases err with
        | some e =>
          cases inv with
          | false =>
            simp only [hcol, hcall] at hx
            exact Or.inl (by simpa using hx)
          | true =>
            simp only [hcol, hcall] at hx
            rcases (by simpa using hx : x ∈ log ∨ x = fid) with h' | h'
            · exact Or.inl h'
            · subst h'
              exact Or.inr ⟨List.mem_cons_self _ _, hlay⟩
        | none =>
          have hgl : ∀ i, (aget g' i).layer = (aget g i).layer := by
            intro i
            have hh := callO_layers U g fid args i
            rw [hcall] at hh
            exact hh
          cases inv with
          | false =>
            simp only [hcol, hcall] at hx
            rcases ih g' log x (by simpa using hx) with h' | ⟨h1, h2⟩
            · exact Or.inl h'
            · rw [hgl x] at h2
              exact Or.inr ⟨List.mem_cons_of_mem _ h1, h2⟩
          | true =>
            simp only [hcol, hcall] at hx
            rcases ih g' (log ++ [fid]) x (by simpa using hx) with h' | ⟨h1, h2⟩
            · rcases List.mem_append.mp h' with h'' | h''
              · exact Or.inl h''
              · rw [List.mem_singleton] at h''
                subst h''
                exact Or.inr ⟨List.mem_cons_self _ _, hlay⟩
            · rw [hgl x] at h2
              exact Or.inr ⟨List.mem_cons_of_mem _ h1, h2⟩

/-- No incoming edges and a different start point means unreachable. -/
theorem not_reach_of_no_incoming {g : Array OFunc} {p : Nat}
    (hno : ∀ x, ¬ edgeO g x p) {r : Nat} (hne : r ≠ p) :
    ¬ Relation.ReflTransGen (edgeO g) r p := by
  intro h
  rcases Relation.ReflTransGen.cases_tail h with h' | ⟨m, _, hstep⟩
  · exact hne h'.symm
  · exact hno m hstep
end RvOld

/-- C7: a registered provider that is not transitively reachable from any
invoke via input-to-producer links is never called during Revolve: linking
links every registered function, but `setLayers` raises only the layers of
nodes demand-reachable from the invoke roots, and the execution loop skips
(`continue`) every function whose layer is still 0 (`src/revolver.go`
lines 95-98, 151-164), so the unreachable provider's target is never
invoked — whatever the dry-run flag and however the run ends. -/
theorem unreachable_provider_never_called (U : TypeUniverse) (gr : RvOld.OGraph)
    (fl : RvOld.Flags) (g1 : Array RvOld.OFunc) (p : Nat)
    (hwf : RvOld.OWF gr)
    (hlink : RvOld.linkAllO U (RvOld.assignableOf U fl) gr.funcs gr.provides
      (gr.invokes ++ gr.provides) = .ok g1)
    (hunreach : ∀ r ∈ gr.invokes, ¬ Relation.ReflTransGen (RvOld.edgeO g1) r p) :
    p ∉ (RvOld.resolveO U gr fl).2 := by
  obtain ⟨hwfl, hall, hl0, hsz⟩ := RvOld.linked_facts hwf hlink
  unfold RvOld.resolveO
  rw [hlink]
  cases hd : fl.dryRun with
  | true =>
    simp
  | false =>
    simp only [Bool.false_eq_true, if_false]
    cases hsl : RvOld.setLayersO (gr.invokes.map some) 1 g1 with
    | error e =>
      simp
    | ok g2 =>
      simp only
      intro hmem
      rcases RvOld.execLoop_called_sub U (RvOld.assignableOf U fl)
          (RvOld.sortByLayer g2 (gr.invokes ++ gr.provides)) g2 [] p hmem with h' | ⟨_, hlay⟩
      · exact absurd h' (List.not_mem_nil _)
      · apply hlay
        by_contra hne
        have hraised : (aget g1 p).layer < (aget g2 p).layer := by
          rw [hl0]
          omega
        obtain ⟨f, hfmem, hfpath⟩ := RvOld.setLayersO_ok_raiseReach hsl hraised
        have hrr : f ∈ gr.invokes := by simpa using hfmem
        exact hunreach f hrr hfpath

/-- A parsed state with an undemanded provider: the invoke (node 0) needs
type 1, produced by node 1; node 2 produces type 2, which nobody consumes. -/
def lazyGr : RvOld.OGraph where
  funcs := #[{ inTypes := [1], inProvides := [none] },
    { outTypes := [1], target := fun _ => [{ typ := 1 }] },
    { outTypes := [2], target := fun _ => [{ typ := 2 }] }]
  invokes := [0]
  provides := [1, 2]

/-- `lazyGr` after linking: only `0 → 1`. -/
def lazyLinked : Array RvOld.OFunc :=
  #[{ inTypes := [1], inProvides := [some 1] },
    { outTypes := [1], target := fun _ => [{ typ := 1 }] },
    { outTypes := [2], target := fun _ => [{ typ := 2 }] }]

theorem lazyGr_wf : RvOld.OWF lazyGr := by
  refine ⟨by decide, by decide, by decide, ?_, ?_, ?_⟩
  · refine RvOld.forall_aget lazyGr.funcs
      (fun f : RvOld.OFunc => f.inProvides.length ≤ f.inTypes.length)
      (fun i hi => ?_) (by decide)
    have h3 : i < 3 := by simpa [lazyGr] using hi
    interval_cases i <;> decide
  · refine RvOld.forall_aget lazyGr.funcs (fun f : RvOld.OFunc => f.layer = 0)
      (fun i hi => ?_) (by decide)
    have h3 : i < 3 := by simpa [lazyGr] using hi
    interval_cases i <;> decide
  · refine RvOld.forall_aget lazyGr.funcs
      (fun f : RvOld.OFunc => ∀ e ∈ f.inProvides, e = none)
      (fun i hi => ?_) (by decide)
    have h3 : i < 3 := by simpa [lazyGr] using hi
    interval_cases i <;> decide

theorem unreachable_provider_never_called_witness :
    RvOld.OWF lazyGr
    ∧ RvOld.linkAllO egoU (RvOld.assignableOf egoU {}) lazyGr.funcs lazyGr.provides
        (lazyGr.invokes ++ lazyGr.provides) = .ok lazyLinked
    ∧ (∀ r ∈ lazyGr.invokes, ¬ Relation.ReflTransGen (RvOld.edgeO lazyLinked) r 2)
    ∧ 2 ∈ lazyGr.provides
    ∧ 2 ∉ (RvOld.resolveO egoU lazyGr {}).2 := by
  have hno : ∀ x, ¬ RvOld.edgeO lazyLinked x 2 := by
    refine RvOld.forall_aget lazyLinked
      (fun f : RvOld.OFunc => ¬ some 2 ∈ f.inProvides) (fun i hi => ?_) (by decide)
    have h3 : i < 3 := by simpa [lazyLinked] using hi
    interval_cases i <;> decide
  have hunreach : ∀ r ∈ lazyGr.invokes, ¬ Relation.ReflTransGen (RvOld.edgeO lazyLinked) r 2 := by
    intro r hr
    have hr0 : r = 0 := by simpa [lazyGr] using hr
    subst hr0
    exact RvOld.not_reach_of_no_incoming hno (by omega)
  exact ⟨lazyGr_wf, rfl, hunreach, by decide,
    unreachable_provider_never_called egoU lazyGr {} lazyLinked 2 lazyGr_wf rfl hunreach⟩

/-! ## Claim C6: at-most-once call -/

/-- C6: a node's function is invoked at most once per `Revolve`: once its
state reaches `StateCalled`, any further `Call` is a no-op returning nil
without invoking the target (`src/function.go` lines 64-66); the state is
set to `StateCalled` on every exit path of `Call` (the deferred assignment,
lines 67-69); hence a second `Call` — with any dry-run setting — never
invokes the target again. -/
theorem call_at_most_once (U : TypeUniverse) (g : Array RvNew.Function)
    (fid : Nat) (d d' : Bool) (h : fid < g.size) :
    ((aget g fid).state = .called → RvNew.call U g fid d = (g, none, false))
    ∧ (aget (RvNew.call U g fid d).1 fid).state = .called
    ∧ RvNew.call U (RvNew.call U g fid d).1 fid d'
      = ((RvNew.call U g fid d).1, none, false) := by
  have hnoop : ∀ (g2 : Array RvNew.Function) (db : Bool),
      (aget g2 fid).state = .called → RvNew.call U g2 fid db = (g2, none, false) := by
    intro g2 db hst
    unfold RvNew.call
    rw [if_pos (by
      rw [FnState.called_le_iff]
      exact hst)]
  have hexit : (aget (RvNew.call U g fid d).1 fid).state = .called := by
    unfold RvNew.call
    split
    · next hcond => exact (FnState.called_le_iff _).mp hcond
    · next hcond =>
      cases hcol : RvNew.collectArgsValues g (aget g fid).inputs with
      | error e =>
        simp only [hcol]
        rw [aget_aset_self _ _ _ h]
      | ok args =>
        simp only [hcol]
        cases d with
        | true =>
          simp only [if_true]
          rw [aget_aset_self _ _ _ h]
        | false =>
          simp only [Bool.false_eq_true, if_false]
          rw [aget_aset_self _ _ _ h]
  exact ⟨hnoop g d, hexit, hnoop _ d' hexit⟩

/-- A one-node heap with an uncalled function, for exercising `call`. -/
def oneInitG : Array RvNew.Function :=
  #[{ state := .initialized }]

theorem call_at_most_once_witness :
    0 < oneInitG.size
    ∧ (aget (RvNew.call egoU oneInitG 0 false).1 0).state = .called
    ∧ RvNew.call egoU (RvNew.call egoU oneInitG 0 false).1 0 false
      = ((RvNew.call egoU oneInitG 0 false).1, none, false) := by
  have hh := call_at_most_once egoU oneInitG 0 false false (by decide)
  exact ⟨by decide, hh.2.1, hh.2.2⟩

/-! ## Claim C9: supply -/

/-- Counterexample to C9 as stated: supplying the untyped nil interface does
not produce a node — `parseSupply` (`src/function.go` lines 207-216) calls
`reflect.ValueOf(value).Type()`, and on a nil interface `reflect.ValueOf`
yields the zero `Value`, whose `Type()` panics (modelled as `goPanic`); the
panic propagates through `supplyOption` (`src/option.go` lines 81-86). -/
theorem supply_nil_panics :
    RvNew.parseSupply none = .error .goPanic
    ∧ RvNew.supplyOption none [] = .error .goPanic :=
  ⟨rfl, rfl⟩

/-- C9 amended: for every value carrying a runtime type — any non-nil
interface argument, including typed nil pointers and non-function values —
`supply` produces, without error, a node with exactly one output whose type
is the value's runtime type and whose value is the value, with no inputs, no
callable and state already `StateCalled`, appended to the provider pool;
supplying the untyped nil interface panics inside `reflect`. -/
theorem supply_nonnil_total (v : Val) (pool : List RvNew.Function) :
    RvNew.parseSupply (some v)
      = .ok
        { hasTarget := false, target := fun _ => [], inputs := [],
          outputs := [({ typ := v.typ, value := some v } : RvNew.Output)],
          state := .called }
    ∧ RvNew.supplyOption (some v) pool
      = .ok (pool ++
        [{ hasTarget := false, target := fun _ => [], inputs := [],
           outputs := [({ typ := v.typ, value := some v } : RvNew.Output)],
           state := .called }]) :=
  ⟨rfl, rfl⟩

/-! ## Linker uniqueness and completeness (claims C2, C3) -/

namespace RvNew

/-- Candidate `p` has an output of non-error type assignable to `typ`. -/
def HasMatchN (U : TypeUniverse) (asn : Nat → Nat → Bool) (g : Array Function)
    (p typ : Nat) : Prop :=
  ∃ o ∈ (aget g p).outputs, U.isError o.typ = false ∧ asn o.typ typ = true

/-- `scanOutputs` only ever fails with `ErrMultipleProvide`. -/
theorem scanOutputs_error {U : TypeUniverse} {asn : Nat → Nat → Bool}
    {typ pid : Nat} :
    ∀ {outs : List Output} {idx : Nat} {acc : Option (Nat × Nat)} {e : GoErr},
      scanOutputs U asn typ pid outs idx acc = .error e → e = .multipleProvide := by
  intro outs
  induction outs with
  | nil =>
    intro idx acc e h
    simp only [scanOutputs] at h
    exact Except.noConfusion h
  | cons o rest ih =>
    intro idx acc e h
    simp only [scanOutputs] at h
    split at h
    · exact ih h
    · split at h
      · exact ih h
      · match acc, h with
        | some x, h => exact (Except.error.inj h).symm
        | none, h => exact ih h

/-- With a candidate already recorded, any further matching output fails. -/
theorem scanOutputs_some_match {U : TypeUniverse} {asn : Nat → Nat → Bool}
    {typ pid : Nat} :
    ∀ {outs : List Output} {idx : Nat} {x : Nat × Nat},
      (∃ o ∈ outs, U.isError o.typ = false ∧ asn o.typ typ = true) →
      scanOutputs U asn typ pid outs idx (some x) = .error .multipleProvide := by
  intro outs
  induction outs with
  | nil =>
    intro idx x h
    obtain ⟨o, ho, _⟩ := h
    exact absurd ho (List.not_mem_nil _)
  | cons o rest ih =>
    intro idx x h
    simp only [scanOutputs]
    obtain ⟨o', ho', herr, hasn⟩ := h
    rcases List.mem_cons.mp ho' with rfl | hmem
    · rw [if_neg (by
        rw [herr]
        exact Bool.false_ne_true), if_neg (by
        rw [hasn]
        simp)]
    · split
      · exact ih ⟨o', hmem, herr, hasn⟩
      · split
        · exact ih ⟨o', hmem, herr, hasn⟩
        · rfl

/-- Without any matching output, the scan returns its accumulator. -/
theorem scanOutputs_no_match {U : TypeUniverse} {asn : Nat → Nat → Bool}
    {typ pid : Nat} :
    ∀ {outs : List Output} {idx : Nat} {acc : Option (Nat × Nat)},
      (∀ o ∈ outs, U.isError o.typ = true ∨ asn o.typ typ = false) →
      scanOutputs U asn typ pid outs idx acc = .ok acc := by
  intro outs
  induction outs with
  | nil =>
    intro idx acc _
    rfl
  | cons o rest ih =>
    intro idx acc h
    simp only [scanOutputs]
    rcases h o (List.mem_cons_self _ _) with he | ha
    · rw [if_pos he]
      exact ih (fun o' ho' => h o' (List.mem_cons_of_mem _ ho'))
    · by_cases he : U.isError o.typ = true
      · rw [if_pos he]
        exact ih (fun o' ho' => h o' (List.mem_cons_of_mem _ ho'))
      · rw [if_neg he, if_pos (by
          rw [ha]
          rfl)]
        exact ih (fun o' ho' => h o' (List.mem_cons_of_mem _ ho'))

/-- A recorded candidate survives the rest of the scan (or the scan fails). -/
theorem scanOutputs_keeps_some {U : TypeUniverse} {asn : Nat → Nat → Bool}
    {typ pid : Nat} :
    ∀ {outs : List Output} {idx : Nat} {x : Nat × Nat} {acc' : Option (Nat × Nat)},
      scanOutputs U asn typ pid outs idx (some x) = .ok acc' → acc' = some x := by
  intro outs
  induction outs with
  | nil =>
    intro idx x acc' h
    exact (Except.ok.inj h).symm
  | cons o rest ih =>
    intro idx x acc' h
    simp only [scanOutputs] at h
    split at h
    · exact ih h
    · split at h
      · exact ih h
      · exact Except.noConfusion h

/-- A matching output turns an empty accumulator into a recorded candidate
(or the scan fails). -/
theorem scanOutputs_match_some {U : TypeUniverse} {asn : Nat → Nat → Bool}
    {typ pid : Nat} :
    ∀ {outs : List Output} {idx : Nat} {acc' : Option (Nat × Nat)},
      (∃ o ∈ outs, U.isError o.typ = false ∧ asn o.typ typ = true) →
      scanOutputs U asn typ pid outs idx none = .ok acc' → acc' ≠ none := by
  intro outs
  induction outs with
  | nil =>
    intro idx acc' h _
    obtain ⟨o, ho, _⟩ := h
    exact absurd ho (List.not_mem_nil _)
  | cons o rest ih =>
    intro idx acc' h hs
    simp only [scanOutputs] at hs
    obtain ⟨o', ho', herr, hasn⟩ := h
    rcases List.mem_cons.mp ho' with rfl | hmem
    · rw [if_neg (by
        rw [herr]
        exact Bool.false_ne_true), if_neg (by
        rw [hasn]
        simp)] at hs
      rw [scanOutputs_keeps_some hs]
      exact fun hh => Option.noConfusion hh
    · split at hs
      · exact ih ⟨o', hmem, herr, hasn⟩ hs
      · split at hs
        · exact ih ⟨o', hmem, herr, hasn⟩ hs
        · rw [scanOutputs_keeps_some hs]
          exact fun hh => Option.noConfusion hh
end RvNew

namespace RvNew

/-- `linkInput` only ever fails with `ErrMultipleProvide`. -/
theorem linkInput_error {U : TypeUniverse} {asn : Nat → Nat → Bool}
    {g : Array Function} {selfId typ : Nat} :
    ∀ {pool : List Nat} {acc : Option (Nat × Nat)} {e : GoErr},
      linkInput U asn g selfId typ pool acc = .error e → e = .multipleProvide := by
  intro pool
  induction pool with
  | nil =>
    intro acc e h
    simp only [linkInput] at h
    exact Except.noConfusion h
  | cons p rest ih =>
    intro acc e h
    simp only [linkInput] at h
    split at h
    · exact ih h
    · cases hs : scanOutputs U asn typ p (aget g p).outputs 0 acc with
      | error e' =>
        rw [hs] at h
        cases Except.error.inj h
        exact scanOutputs_error hs
      | ok acc' =>
        rw [hs] at h
        exact ih h

/-- With a candidate already recorded, a further matching provider in the
pool makes `linkInput` fail with `ErrMultipleProvide`. -/
theorem linkInput_some_match {U : TypeUniverse} {asn : Nat → Nat → Bool}
    {g : Array Function} {selfId typ : Nat} :
    ∀ {pool : List Nat} {x : Nat × Nat},
      (∃ p ∈ pool, p ≠ selfId ∧ HasMatchN U asn g p typ) →
      linkInput U asn g selfId typ pool (some x) = .error .multipleProvide := by
  intro pool
  induction pool with
  | nil =>
    intro x h
    obtain ⟨p, hp, _⟩ := h
    exact absurd hp (List.not_mem_nil _)
  | cons q rest ih =>
    intro x h
    obtain ⟨p, hp, hps, hm⟩ := h
    simp only [linkInput]
    by_cases hq : q = selfId
    · rw [if_pos hq]
      rcases List.mem_cons.mp hp with rfl | hmem
      · exact absurd hq hps
      · exact ih ⟨p, hmem, hps, hm⟩
    · rw [if_neg hq]
      by_cases hqm : HasMatchN U asn g q typ
      · rw [scanOutputs_some_match hqm]
      · have hnom : ∀ o ∈ (aget g q).outputs,
            U.isError o.typ = true ∨ asn o.typ typ = false := by
          intro o ho
          by_cases he : U.isError o.typ = true
          · exact Or.inl he
          · by_cases ha : asn o.typ typ = true
            · exact absurd ⟨o, ho, Bool.not_eq_true _ ▸ he, ha⟩ hqm
            · exact Or.inr (Bool.not_eq_true _ ▸ ha)
        rw [scanOutputs_no_match hnom]
        rcases List.mem_cons.mp hp with rfl | hmem
        · exact absurd hm hqm
        · exact ih ⟨p, hmem, hps, hm⟩

/-- C2's core, second revision: two distinct matching providers other than
the function itself make `linkInput` fail with `ErrMultipleProvide`. -/
theorem linkInput_two_matches {U : TypeUniverse} {asn : Nat → Nat → Bool}
    {g : Array Function} {selfId typ : Nat} :
    ∀ {pool : List Nat} {p1 p2 : Nat},
      p1 ∈ pool → p2 ∈ pool → p1 ≠ p2 → p1 ≠ selfId → p2 ≠ selfId →
      HasMatchN U asn g p1 typ → HasMatchN U asn g p2 typ →
      linkInput U asn g selfId typ pool none = .error .multipleProvide := by
  intro pool
  induction pool with
  | nil =>
    intro p1 p2 hp1 _ _ _ _ _ _
    exact absurd hp1 (List.not_mem_nil _)
  | cons q rest ih =>
    intro p1 p2 hp1 hp2 hne hs1 hs2 hm1 hm2
    simp only [linkInput]
    by_cases hq : q = selfId
    · rw [if_pos hq]
      have hp1' : p1 ∈ rest := by
        rcases List.mem_cons.mp hp1 with rfl | h'
        · exact absurd hq (by
            intro hh
            exact hs1 hh)
        · exact h'
      have hp2' : p2 ∈ rest := by
        rcases List.mem_cons.mp hp2 with rfl | h'
        · exact absurd hq (by
            intro hh
            exact hs2 hh)
        · exact h'
      exact ih hp1' hp2' hne hs1 hs2 hm1 hm2
    · rw [if_neg hq]
      by_cases hqm : HasMatchN U asn g q typ
      · cases hs : scanOutputs U asn typ q (aget g q).outputs 0 none with
        | error e =>
          have he := scanOutputs_error hs
          subst he
          rfl
        | ok acc' =>
          have hacc : acc' ≠ none := scanOutputs_match_some hqm hs
          match acc', hacc with
          | none, hacc => exact absurd rfl hacc
          | some x, _ =>
            have hrest : ∃ p ∈ rest, p ≠ selfId ∧ HasMatchN U asn g p typ := by
              by_cases h1q : p1 = q
              · have hp2' : p2 ∈ rest := by
                  rcases List.mem_cons.mp hp2 with rfl | h'
                  · exact absurd rfl (h1q ▸ hne)
                  · exact h'
                exact ⟨p2, hp2', hs2, hm2⟩
              · have hp1' : p1 ∈ rest := by
                  rcases List.mem_cons.mp hp1 with rfl | h'
                  · exact absurd rfl h1q
                  · exact h'
                exact ⟨p1, hp1', hs1, hm1⟩
            exact linkInput_some_match hrest
      · have hnom : ∀ o ∈ (aget g q).outputs,
            U.isError o.typ = true ∨ asn o.typ typ = false := by
          intro o ho
          by_cases he : U.isError o.typ = true
          · exact Or.inl he
          · by_cases ha : asn o.typ typ = true
            · exact absurd ⟨o, ho, Bool.not_eq_true _ ▸ he, ha⟩ hqm
            · exact Or.inr (Bool.not_eq_true _ ▸ ha)
        rw [scanOutputs_no_match hnom]
        have hp1' : p1 ∈ rest := by
          rcases List.mem_cons.mp hp1 with rfl | h'
          · exact absurd hm1 hqm
          · exact h'
        have hp2' : p2 ∈ rest := by
          rcases List.mem_cons.mp hp2 with rfl | h'
          · exact absurd hm2 hqm
          · exact h'
        exact ih hp1' hp2' hne hs1 hs2 hm1 hm2

/-- C3's core, second revision: with no matching provider other than the
function itself, `linkInput` selects nothing (and returns no error). -/
theorem linkInput_no_match {U : TypeUniverse} {asn : Nat → Nat → Bool}
    {g : Array Function} {selfId typ : Nat} :
    ∀ {pool : List Nat},
      (∀ q ∈ pool, q ≠ selfId → ¬ HasMatchN U asn g q typ) →
      linkInput U asn g selfId typ pool none = .ok none := by
  intro pool
  induction pool with
  | nil =>
    intro _
    rfl
  | cons q rest ih =>
    intro h
    simp only [linkInput]
    by_cases hq : q = selfId
    · rw [if_pos hq]
      exact ih (fun q' hq' => h q' (List.mem_cons_of_mem _ hq'))
    · rw [if_neg hq]
      have hnom : ∀ o ∈ (aget g q).outputs,
          U.isError o.typ = true ∨ asn o.typ typ = false := by
        intro o ho
        by_cases he : U.isError o.typ = true
        · exact Or.inl he
        · by_cases ha : asn o.typ typ = true
          · exact absurd ⟨o, ho, Bool.not_eq_true _ ▸ he, ha⟩ (h q (List.mem_cons_self _ _) hq)
          · exact Or.inr (Bool.not_eq_true _ ▸ ha)
      rw [scanOutputs_no_match hnom]
      exact ih (fun q' hq' => h q' (List.mem_cons_of_mem _ hq'))
end RvNew

namespace RvOld

/-- Candidate `p` has an output type that is non-error and assignable to
`typ`. -/
def HasMatchO (U : TypeUniverse) (asn : Nat → Nat → Bool) (g : Array OFunc)
    (p typ : Nat) : Prop :=
  ∃ t ∈ (aget g p).outTypes, U.isError t = false ∧ asn t typ = true

theorem scanOutsO_error {U : TypeUniverse} {asn : Nat → Nat → Bool}
    {typ pid : Nat} :
    ∀ {outs : List Nat} {acc : Option Nat} {e : GoErr},
      scanOutsO U asn typ pid outs acc = .error e → e = .multipleProvide := by
  intro outs
  induction outs with
  | nil =>
    intro acc e h
    simp only [scanOutsO] at h
    exact Except.noConfusion h
  | cons t rest ih =>
    intro acc e h
    simp only [scanOutsO] at h
    split at h
    · exact ih h
    · split at h
      · exact ih h
      · match acc, h with
        | some x, h => exact (Except.error.inj h).symm
        | none, h => exact ih h

theorem scanOutsO_some_match {U : TypeUniverse} {asn : Nat → Nat → Bool}
    {typ pid : Nat} :
    ∀ {outs : List Nat} {x : Nat},
      (∃ t ∈ outs, U.isError t = false ∧ asn t typ = true) →
      scanOutsO U asn typ pid outs (some x) = .error .multipleProvide := by
  intro outs
  induction outs with
  | nil =>
    intro x h
    obtain ⟨t, ht, _⟩ := h
    exact absurd ht (List.not_mem_nil _)
  | cons t rest ih =>
    intro x h
    simp only [scanOutsO]
    obtain ⟨t', ht', herr, hasn⟩ := h
    rcases List.mem_cons.mp ht' with rfl | hmem
    · rw [if_neg (by
        rw [herr]
        exact Bool.false_ne_true), if_neg (by
        rw [hasn]
        simp)]
    · split
      · exact ih ⟨t', hmem, herr, hasn⟩
      · split
        · exact ih ⟨t', hmem, herr, hasn⟩
        · rfl

theorem scanOutsO_no_match {U : TypeUniverse} {asn : Nat → Nat → Bool}
    {typ pid : Nat} :
    ∀ {outs : List Nat} {acc : Option Nat},
      (∀ t ∈ outs, U.isError t = true ∨ asn t typ = false) →
      scanOutsO U asn typ pid outs acc = .ok acc := by
  intro outs
  induction outs with
  | nil =>
    intro acc _
    rfl
  | cons t rest ih =>
    intro acc h
    simp only [scanOutsO]
    rcases h t (List.mem_cons_self _ _) with he | ha
    · rw [if_pos he]
      exact ih (fun t' ht' => h t' (List.mem_cons_of_mem _ ht'))
    · by_cases he : U.isError t = true
      · rw [if_pos he]
        exact ih (fun t' ht' => h t' (List.mem_cons_of_mem _ ht'))
      · rw [if_neg he, if_pos (by
          rw [ha]
          rfl)]
        exact ih (fun t' ht' => h t' (List.mem_cons_of_mem _ ht'))

theorem scanOutsO_keeps_some {U : TypeUniverse} {asn : Nat → Nat → Bool}
    {typ pid : Nat} :
    ∀ {outs : List Nat} {x : Nat} {acc' : Option Nat},
      scanOutsO U asn typ pid outs (some x) = .ok acc' → acc' = some x := by
  intro outs
  induction outs with
  | nil =>
    intro x acc' h
    exact (Except.ok.inj h).symm
  | cons t rest ih =>
    intro x acc' h
    simp only [scanOutsO] at h
    split at h
    · exact ih h
    · split at h
      · exact ih h
      · exact Except.noConfusion h

theorem scanOutsO_match_some {U : TypeUniverse} {asn : Nat → Nat → Bool}
    {typ pid : Nat} :
    ∀ {outs : List Nat} {acc' : Option Nat},
      (∃ t ∈ outs, U.isError t = false ∧ asn t typ = true) →
      scanOutsO U asn typ pid outs none = .ok acc' → acc' ≠ none := by
  intro outs
  induction outs with
  | nil =>
    intro acc' h _
    obtain ⟨t, ht, _⟩ := h
    exact absurd ht (List.not_mem_nil _)
  | cons t rest ih =>
    intro acc' h hs
    simp only [scanOutsO] at hs
    obtain ⟨t', ht', herr, hasn⟩ := h
    rcases List.mem_cons.mp ht' with rfl | hmem
    · rw [if_neg (by
        rw [herr]
        exact Bool.false_ne_true), if_neg (by
        rw [hasn]
        simp)] at hs
      rw [scanOutsO_keeps_some hs]
      exact fun hh => Option.noConfusion hh
    · split at hs
      · exact ih ⟨t', hmem, herr, hasn⟩ hs
      · split at hs
        · exact ih ⟨t', hmem, herr, hasn⟩ hs
        · rw [scanOutsO_keeps_some hs]
          exact fun hh => Option.noConfusion hh
end RvOld

namespace RvOld

theorem linkCandsO_error {U : TypeUniverse} {asn : Nat → Nat → Bool}
    {g : Array OFunc} {fid typ : Nat} :
    ∀ {pool : List Nat} {acc : Option Nat} {e : GoErr},
      linkCandsO U asn g fid typ pool acc = .error e → e = .multipleProvide := by
  intro pool
  induction pool with
  | nil =>
    intro acc e h
    simp only [linkCandsO] at h
    exact Except.noConfusion h
  | cons p rest ih =>
    intro acc e h
    simp only [linkCandsO] at h
    split at h
    · exact ih h
    · cases hs : scanOutsO U asn typ p (aget g p).outTypes acc with
      | error e' =>
        rw [hs] at h
        cases Except.error.inj h
        exact scanOutsO_error hs
      | ok acc' =>
        rw [hs] at h
        exact ih h

theorem linkCandsO_some_match {U : TypeUniverse} {asn : Nat → Nat → Bool}
    {g : Array OFunc} {fid typ : Nat} :
    ∀ {pool : List Nat} {x : Nat},
      (∃ p ∈ pool, p ≠ fid ∧ HasMatchO U asn g p typ) →
      linkCandsO U asn g fid typ pool (some x) = .error .multipleProvide := by
  intro pool
  induction pool with
  | nil =>
    intro x h
    obtain ⟨p, hp, _⟩ := h
    exact absurd hp (List.not_mem_nil _)
  | cons q rest ih =>
    intro x h
    obtain ⟨p, hp, hps, hm⟩ := h
    simp only [linkCandsO]
    by_cases hq : q = fid
    · rw [if_pos hq]
      rcases List.mem_cons.mp hp with rfl | hmem
      · exact absurd hq hps
      · exact ih ⟨p, hmem, hps, hm⟩
    · rw [if_neg hq]
      by_cases hqm : HasMatchO U asn g q typ
      · rw [scanOutsO_some_match hqm]
      · have hnom : ∀ t ∈ (aget g q).outTypes,
            U.isError t = true ∨ asn t typ = false := by
          intro t ht
          by_cases he : U.isError t = true
          · exact Or.inl he
          · by_cases ha : asn t typ = true
            · exact absurd ⟨t, ht, Bool.not_eq_true _ ▸ he, ha⟩ hqm
            · exact Or.inr (Bool.not_eq_true _ ▸ ha)
        rw [scanOutsO_no_match hnom]
        rcases List.mem_cons.mp hp with rfl | hmem
        · exact absurd hm hqm
        · exact ih ⟨p, hmem, hps, hm⟩

/-- C2's core, first revision: two distinct matching providers other than
the function itself make the candidate scan of `linkProvides` fail with
`ErrMultipleProvide`. -/
theorem linkCandsO_two_matches {U : TypeUniverse} {asn : Nat → Nat → Bool}
    {g : Array OFunc} {fid typ : Nat} :
    ∀ {pool : List Nat} {p1 p2 : Nat},
      p1 ∈ pool → p2 ∈ pool → p1 ≠ p2 → p1 ≠ fid → p2 ≠ fid →
      HasMatchO U asn g p1 typ → HasMatchO U asn g p2 typ →
      linkCandsO U asn g fid typ pool none = .error .multipleProvide := by
  intro pool
  induction pool with
  | nil =>
    intro p1 p2 hp1 _ _ _ _ _ _
    exact absurd hp1 (List.not_mem_nil _)
  | cons q rest ih =>
    intro p1 p2 hp1 hp2 hne hs1 hs2 hm1 hm2
    simp only [linkCandsO]
    by_cases hq : q = fid
    · rw [if_pos hq]
      have hp1' : p1 ∈ rest := by
        rcases List.mem_cons.mp hp1 with rfl | h'
        · exact absurd hq hs1
        · exact h'
      have hp2' : p2 ∈ rest := by
        rcases List.mem_cons.mp hp2 with rfl | h'
        · exact absurd hq hs2
        · exact h'
      exact ih hp1' hp2' hne hs1 hs2 hm1 hm2
    · rw [if_neg hq]
      by_cases hqm : HasMatchO U asn g q typ
      · cases hs : scanOutsO U asn typ q (aget g q).outTypes none with
        | error e =>
          have he := scanOutsO_error hs
          subst he
          rfl
        | ok acc' =>
          have hacc : acc' ≠ none := scanOutsO_match_some hqm hs
          match acc', hacc with
          | none, hacc => exact absurd rfl hacc
          | some x, _ =>
            have hrest : ∃ p ∈ rest, p ≠ fid ∧ HasMatchO U asn g p typ := by
              by_cases h1q : p1 = q
              · have hp2' : p2 ∈ rest := by
                  rcases List.mem_cons.mp hp2 with rfl | h'
                  · exact absurd rfl (h1q ▸ hne)
                  · exact h'
                exact ⟨p2, hp2', hs2, hm2⟩
              · have hp1' : p1 ∈ rest := by
                  rcases List.mem_cons.mp hp1 with rfl | h'
                  · exact absurd rfl h1q
                  · exact h'
                exact ⟨p1, hp1', hs1, hm1⟩
            exact linkCandsO_some_match hrest
      · have hnom : ∀ t ∈ (aget g q).outTypes,
            U.isError t = true ∨ asn t typ = false := by
          intro t ht
          by_cases he : U.isError t = true
          · exact Or.inl he
          · by_cases ha : asn t typ = true
            · exact absurd ⟨t, ht, Bool.not_eq_true _ ▸ he, ha⟩ hqm
            · exact Or.inr (Bool.not_eq_true _ ▸ ha)
        rw [scanOutsO_no_match hnom]
        have hp1' : p1 ∈ rest := by
          rcases List.mem_cons.mp hp1 with rfl | h'
          · exact absurd hm1 hqm
          · exact h'
        have hp2' : p2 ∈ rest := by
          rcases List.mem_cons.mp hp2 with rfl | h'
          · exact absurd hm2 hqm
          · exact h'
        exact ih hp1' hp2' hne hs1 hs2 hm1 hm2

/-- C3's core, first revision: with no matching provider other than the
function itself, the candidate scan selects nothing. -/
theorem linkCandsO_no_match {U : TypeUniverse} {asn : Nat → Nat → Bool}
    {g : Array OFunc} {fid typ : Nat} :
    ∀ {pool : List Nat},
      (∀ q ∈ pool, q ≠ fid → ¬ HasMatchO U asn g q typ) →
      linkCandsO U asn g fid typ pool none = .ok none := by
  intro pool
  induction pool with
  | nil =>
    intro _
    rfl
  | cons q rest ih =>
    intro h
    simp only [linkCandsO]
    by_cases hq : q = fid
    · rw [if_pos hq]
      exact ih (fun q' hq' => h q' (List.mem_cons_of_mem _ hq'))
    · rw [if_neg hq]
      have hnom : ∀ t ∈ (aget g q).outTypes,
          U.isError t = true ∨ asn t typ = false := by
        intro t ht
        by_cases he : U.isError t = true
        · exact Or.inl he
        · by_cases ha : asn t typ = true
          · exact absurd ⟨t, ht, Bool.not_eq_true _ ▸ he, ha⟩ (h q (List.mem_cons_self _ _) hq)
          · exact Or.inr (Bool.not_eq_true _ ▸ ha)
      rw [scanOutsO_no_match hnom]
      exact ih (fun q' hq' => h q' (List.mem_cons_of_mem _ hq'))
end RvOld

namespace RvOld

/-- Linking a concatenated input list is linking the first part, then the
second from the shifted index. -/
theorem linkInputsO_append {U : TypeUniverse} {asn : Nat → Nat → Bool}
    {fid : Nat} {pool : List Nat} :
    ∀ (l1 l2 : List Nat) (idx : Nat) (g : Array OFunc),
      linkInputsO U asn g fid pool (l1 ++ l2) idx
        = match linkInputsO U asn g fid pool l1 idx with
          | .error e => .error e
          | .ok g' => linkInputsO U asn g' fid pool l2 (idx + l1.length) := by
  intro l1
  induction l1 with
  | nil =>
    intro l2 idx g
    simp only [List.nil_append, linkInputsO, List.length_nil, Nat.add_zero]
  | cons t rest ih =>
    intro l2 idx g
    simp only [List.cons_append, linkInputsO]
    cases hc : linkCandsO U asn g fid t pool none with
    | error e => rfl
    | ok d =>
      match d with
      | none => rfl
      | some p =>
        simp only
        rw [List.append_eq, ih]
        have harith : idx + 1 + rest.length = idx + (rest.length + 1) := by omega
        rw [harith]
        rfl

/-- Linking a concatenated function list is linking the first part, then the
second. -/
theorem linkAllO_append {U : TypeUniverse} {asn : Nat → Nat → Bool}
    {pool : List Nat} :
    ∀ (l1 l2 : List Nat) (g : Array OFunc),
      linkAllO U asn g pool (l1 ++ l2)
        = match linkAllO U asn g pool l1 with
          | .error e => .error e
          | .ok g' => linkAllO U asn g' pool l2 := by
  intro l1
  induction l1 with
  | nil =>
    intro l2 g
    simp only [List.nil_append, linkAllO]
  | cons f rest ih =>
    intro l2 g
    simp only [List.cons_append, linkAllO]
    cases hc : linkProvidesO U asn g f pool with
    | error e => rfl
    | ok g1 => exact ih l2 g1
end RvOld

namespace RvNew

/-- Linking a concatenated input list (second revision). -/
theorem linkInputs_append {U : TypeUniverse} {asn : Nat → Nat → Bool}
    {fid : Nat} {pool : List Nat} :
    ∀ (l1 l2 : List Input) (idx : Nat) (g : Array Function),
      linkInputs U asn g fid pool (l1 ++ l2) idx
        = match linkInputs U asn g fid pool l1 idx with
          | .error e => .error e
          | .ok g' => linkInputs U asn g' fid pool l2 (idx + l1.length) := by
  intro l1
  induction l1 with
  | nil =>
    intro l2 idx g
    simp only [List.nil_append, linkInputs, List.length_nil, Nat.add_zero]
  | cons i rest ih =>
    intro l2 idx g
    simp only [List.cons_append, linkInputs]
    cases hc : linkInput U asn g fid i.typ pool none with
    | error e => rfl
    | ok d =>
      match d with
      | none => rfl
      | some pr =>
        match pr with
        | (pid, outIdx) =>
          simp only
          rw [List.append_eq, ih]
          have harith : idx + 1 + rest.length = idx + (rest.length + 1) := by omega
          rw [harith]
          rfl
end RvNew

/-! ## Claim C2: uniqueness detection -/

/-- C2: for every input type `T` of a registered function `N`, if at least
two distinct registered providers other than `N` itself each have a
non-error-typed output assignable to `T` under the active assignability
predicate, then linking — and hence Revolve — fails with an error matching
`ErrMultipleProvide`.

Conjuncts: (1) `linkInput` (second revision, `src/function.go` lines
115-139) fails with `ErrMultipleProvide`; (2) hence `LinkProvides` fails
with it once the offending input is reached (its earlier inputs having
linked); (3) the candidate scan of `linkProvides` (first revision,
`src/revolver.go` lines 117-149) fails with it; (4) hence `resolve` — and
`Revolve` — returns it, once linking reaches the offending input with no
earlier failure. -/
theorem link_multiple_provide :
    (∀ (U : TypeUniverse) (asn : Nat → Nat → Bool) (g : Array RvNew.Function)
      (selfId typ : Nat) (pool : List Nat) (p1 p2 : Nat),
      p1 ∈ pool → p2 ∈ pool → p1 ≠ p2 → p1 ≠ selfId → p2 ≠ selfId →
      RvNew.HasMatchN U asn g p1 typ → RvNew.HasMatchN U asn g p2 typ →
      RvNew.linkInput U asn g selfId typ pool none = .error .multipleProvide)
    ∧ (∀ (U : TypeUniverse) (asn : Nat → Nat → Bool) (g g' : Array RvNew.Function)
      (fid : Nat) (pool : List Nat) (i1s : List RvNew.Input) (i : RvNew.Input)
      (i2s : List RvNew.Input) (p1 p2 : Nat),
      (aget g fid).inputs = i1s ++ i :: i2s →
      RvNew.linkInputs U asn g fid pool i1s 0 = .ok g' →
      p1 ∈ pool → p2 ∈ pool → p1 ≠ p2 → p1 ≠ fid → p2 ≠ fid →
      RvNew.HasMatchN U asn g' p1 i.typ → RvNew.HasMatchN U asn g' p2 i.typ →
      RvNew.LinkProvides U asn g fid pool = .error .multipleProvide)
    ∧ (∀ (U : TypeUniverse) (asn : Nat → Nat → Bool) (g : Array RvOld.OFunc)
      (fid typ : Nat) (pool : List Nat) (p1 p2 : Nat),
      p1 ∈ pool → p2 ∈ pool → p1 ≠ p2 → p1 ≠ fid → p2 ≠ fid →
      RvOld.HasMatchO U asn g p1 typ → RvOld.HasMatchO U asn g p2 typ →
      RvOld.linkCandsO U asn g fid typ pool none = .error .multipleProvide)
    ∧ (∀ (U : TypeUniverse) (gr : RvOld.OGraph) (fl : RvOld.Flags)
      (gm gm2 : Array RvOld.OFunc) (l1 l2 : List Nat) (N : Nat)
      (t1s : List Nat) (typ : Nat) (t2s : List Nat) (p1 p2 : Nat),
      gr.invokes ++ gr.provides = l1 ++ N :: l2 →
      RvOld.linkAllO U (RvOld.assignableOf U fl) gr.funcs gr.provides l1 = .ok gm →
      (aget gm N).inTypes = t1s ++ typ :: t2s →
      RvOld.linkInputsO U (RvOld.assignableOf U fl) gm N gr.provides t1s 0 = .ok gm2 →
      p1 ∈ gr.provides → p2 ∈ gr.provides → p1 ≠ p2 → p1 ≠ N → p2 ≠ N →
      RvOld.HasMatchO U (RvOld.assignableOf U fl) gm2 p1 typ →
      RvOld.HasMatchO U (RvOld.assignableOf U fl) gm2 p2 typ →
      RvOld.resolveO U gr fl = (some .multipleProvide, [])) := by
  refine ⟨?_, ?_, ?_, ?_⟩
  · intro U asn g selfId typ pool p1 p2 h1 h2 h3 h4 h5 h6 h7
    exact RvNew.linkInput_two_matches h1 h2 h3 h4 h5 h6 h7
  · intro U asn g g' fid pool i1s i i2s p1 p2 hins hpre h1 h2 h3 h4 h5 h6 h7
    have hstep : RvNew.linkInputs U asn g fid pool (i1s ++ i :: i2s) 0
        = .error .multipleProvide := by
      rw [RvNew.linkInputs_append, hpre]
      simp only [RvNew.linkInputs]
      rw [RvNew.linkInput_two_matches h1 h2 h3 h4 h5 h6 h7]
    unfold RvNew.LinkProvides
    rw [hins, hstep]
  · intro U asn g fid typ pool p1 p2 h1 h2 h3 h4 h5 h6 h7
    exact RvOld.linkCandsO_two_matches h1 h2 h3 h4 h5 h6 h7
  · intro U gr fl gm gm2 l1 l2 N t1s typ t2s p1 p2 hsplit hpre hty hpre2
      h1 h2 h3 h4 h5 h6 h7
    have hcand := RvOld.linkCandsO_two_matches h1 h2 h3 h4 h5 h6 h7
    have hstep : RvOld.linkInputsO U (RvOld.assignableOf U fl) gm N gr.provides
        (t1s ++ typ :: t2s) 0 = .error .multipleProvide := by
      rw [RvOld.linkInputsO_append, hpre2]
      simp only [RvOld.linkInputsO]
      rw [hcand]
    have hlp : RvOld.linkProvidesO U (RvOld.assignableOf U fl) gm N gr.provides
        = .error .multipleProvide := by
      unfold RvOld.linkProvidesO
      rw [hty]
      exact hstep
    have hall : RvOld.linkAllO U (RvOld.assignableOf U fl) gr.funcs gr.provides
        (l1 ++ N :: l2) = .error .multipleProvide := by
      rw [RvOld.linkAllO_append, hpre]
      simp only [RvOld.linkAllO]
      rw [hlp]
    unfold RvOld.resolveO
    rw [hsplit, hall]

/-- A parsed state where type 1 is provided twice. -/
def dupGr : RvOld.OGraph where
  funcs := #[{ inTypes := [1], inProvides := [none] },
    { outTypes := [1] }, { outTypes := [1] }]
  invokes := [0]
  provides := [1, 2]

/-- The second-revision counterpart of `dupGr`. -/
def dupNG : Array RvNew.Function :=
  #[{ inputs := [{ typ := 1 }] },
    { outputs := [{ typ := 1 }] },
    { outputs := [{ typ := 1 }] }]

theorem link_multiple_provide_witness :
    RvNew.HasMatchN egoU typesSimpleAssignable dupNG 1 1
    ∧ RvNew.HasMatchN egoU typesSimpleAssignable dupNG 2 1
    ∧ RvNew.linkInput egoU typesSimpleAssignable dupNG 0 1 [1, 2] none
      = .error .multipleProvide
    ∧ (aget dupNG 0).inputs = [] ++ ({ typ := 1 } : RvNew.Input) :: []
    ∧ RvNew.LinkProvides egoU typesSimpleAssignable dupNG 0 [1, 2]
      = .error .multipleProvide
    ∧ RvOld.HasMatchO egoU (RvOld.assignableOf egoU {}) dupGr.funcs 1 1
    ∧ RvOld.HasMatchO egoU (RvOld.assignableOf egoU {}) dupGr.funcs 2 1
    ∧ RvOld.linkCandsO egoU (RvOld.assignableOf egoU {}) dupGr.funcs 0 1 [1, 2] none
      = .error .multipleProvide
    ∧ dupGr.invokes ++ dupGr.provides = [] ++ 0 :: [1, 2]
    ∧ RvOld.resolveO egoU dupGr {} = (some .multipleProvide, []) := by
  have hm1 : RvNew.HasMatchN egoU typesSimpleAssignable dupNG 1 1 :=
    ⟨{ typ := 1 }, by decide, by decide, by decide⟩
  have hm2 : RvNew.HasMatchN egoU typesSimpleAssignable dupNG 2 1 :=
    ⟨{ typ := 1 }, by decide, by decide, by decide⟩
  have ho1 : RvOld.HasMatchO egoU (RvOld.assignableOf egoU {}) dupGr.funcs 1 1 := by
    refine ⟨1, by decide, by decide, by decide⟩
  have ho2 : RvOld.HasMatchO egoU (RvOld.assignableOf egoU {}) dupGr.funcs 2 1 := by
    refine ⟨1, by decide, by decide, by decide⟩
  refine ⟨hm1, hm2, ?_, rfl, ?_, ho1, ho2, ?_, rfl, ?_⟩
  · exact link_multiple_provide.1 egoU typesSimpleAssignable dupNG 0 1 [1, 2] 1 2
      (by decide) (by decide) (by decide) (by decide) (by decide) hm1 hm2
  · exact link_multiple_provide.2.1 egoU typesSimpleAssignable dupNG dupNG 0 [1, 2]
      [] { typ := 1 } [] 1 2 rfl rfl (by decide) (by decide) (by decide) (by decide)
      (by decide) hm1 hm2
  · exact link_multiple_provide.2.2.1 egoU (RvOld.assignableOf egoU {}) dupGr.funcs
      0 1 [1, 2] 1 2 (by decide) (by decide) (by decide) (by decide) (by decide) ho1 ho2
  · exact link_multiple_provide.2.2.2 egoU dupGr {} dupGr.funcs dupGr.funcs
      [] [1, 2] 0 [] 1 [] 1 2 rfl rfl rfl rfl (by decide) (by decide) (by decide)
      (by decide) (by decide) ho1 ho2

/-! ## Claim C3: completeness detection -/

/-- C3: for every input type `T` of a registered function `N`, if no
registered provider other than `N` itself has a non-error-typed output
assignable to `T` under the active assignability predicate, then linking —
and hence Revolve — fails with an error matching `ErrCannotProvideValue`.

Conjuncts: (1) `linkInput` (second revision) selects nothing; (2) hence
`LinkProvides` (`src/function.go` lines 41-57) fails with
`ErrCannotProvideValue` once the offending input is reached; (3) the
candidate scan of `linkProvides` (first revision) selects nothing; (4)
hence `resolve` — and `Revolve` — returns `ErrCannotProvideValue`
(`src/revolver.go` lines 143-148), once linking reaches the offending input
with no earlier failure. -/
theorem link_cannot_provide_value :
    (∀ (U : TypeUniverse) (asn : Nat → Nat → Bool) (g : Array RvNew.Function)
      (selfId typ : Nat) (pool : List Nat),
      (∀ q ∈ pool, q ≠ selfId → ¬ RvNew.HasMatchN U asn g q typ) →
      RvNew.linkInput U asn g selfId typ pool none = .ok none)
    ∧ (∀ (U : TypeUniverse) (asn : Nat → Nat → Bool) (g g' : Array RvNew.Function)
      (fid : Nat) (pool : List Nat) (i1s : List RvNew.Input) (i : RvNew.Input)
      (i2s : List RvNew.Input),
      (aget g fid).inputs = i1s ++ i :: i2s →
      RvNew.linkInputs U asn g fid pool i1s 0 = .ok g' →
      (∀ q ∈ pool, q ≠ fid → ¬ RvNew.HasMatchN U asn g' q i.typ) →
      RvNew.LinkProvides U asn g fid pool = .error .cannotProvideValue)
    ∧ (∀ (U : TypeUniverse) (asn : Nat → Nat → Bool) (g : Array RvOld.OFunc)
      (fid typ : Nat) (pool : List Nat),
      (∀ q ∈ pool, q ≠ fid → ¬ RvOld.HasMatchO U asn g q typ) →
      RvOld.linkCandsO U asn g fid typ pool none = .ok none)
    ∧ (∀ (U : TypeUniverse) (gr : RvOld.OGraph) (fl : RvOld.Flags)
      (gm gm2 : Array RvOld.OFunc) (l1 l2 : List Nat) (N : Nat)
      (t1s : List Nat) (typ : Nat) (t2s : List Nat),
      gr.invokes ++ gr.provides = l1 ++ N :: l2 →
      RvOld.linkAllO U (RvOld.assignableOf U fl) gr.funcs gr.provides l1 = .ok gm →
      (aget gm N).inTypes = t1s ++ typ :: t2s →
      RvOld.linkInputsO U (RvOld.assignableOf U fl) gm N gr.provides t1s 0 = .ok gm2 →
      (∀ q ∈ gr.provides, q ≠ N →
        ¬ RvOld.HasMatchO U (RvOld.assignableOf U fl) gm2 q typ) →
      RvOld.resolveO U gr fl = (some .cannotProvideValue, [])) := by
  refine ⟨?_, ?_, ?_, ?_⟩
  · intro U asn g selfId typ pool h
    exact RvNew.linkInput_no_match h
  · intro U asn g g' fid pool i1s i i2s hins hpre h
    have hstep : RvNew.linkInputs U asn g fid pool (i1s ++ i :: i2s) 0
        = .error .cannotProvideValue := by
      rw [RvNew.linkInputs_append, hpre]
      simp only [RvNew.linkInputs]
      rw [RvNew.linkInput_no_match h]
    unfold RvNew.LinkProvides
    rw [hins, hstep]
  · intro U asn g fid typ pool h
    exact RvOld.linkCandsO_no_match h
  · intro U gr fl gm gm2 l1 l2 N t1s typ t2s hsplit hpre hty hpre2 h
    have hcand := RvOld.linkCandsO_no_match h
    have hstep : RvOld.linkInputsO U (RvOld.assignableOf U fl) gm N gr.provides
        (t1s ++ typ :: t2s) 0 = .error .cannotProvideValue := by
      rw [RvOld.linkInputsO_append, hpre2]
      simp only [RvOld.linkInputsO]
      rw [hcand]
    have hlp : RvOld.linkProvidesO U (RvOld.assignableOf U fl) gm N gr.provides
        = .error .cannotProvideValue := by
      unfold RvOld.linkProvidesO
      rw [hty]
      exact hstep
    have hall : RvOld.linkAllO U (RvOld.assignableOf U fl) gr.funcs gr.provides
        (l1 ++ N :: l2) = .error .cannotProvideValue := by
      rw [RvOld.linkAllO_append, hpre]
      simp only [RvOld.linkAllO]
      rw [hlp]
    unfold RvOld.resolveO
    rw [hsplit, hall]

/-- A parsed state where the invoke needs type 3, which nobody provides. -/
def gapGr : RvOld.OGraph where
  funcs := #[{ inTypes := [3], inProvides := [none] }, { outTypes := [1] }]
  invokes := [0]
  provides := [1]

/-- The second-revision counterpart of `gapGr`. -/
def gapNG : Array RvNew.Function :=
  #[{ inputs := [{ typ := 3 }] }, { outputs := [{ typ := 1 }] }]

theorem link_cannot_provide_value_witness :
    (∀ q ∈ [1], q ≠ 0 → ¬ RvNew.HasMatchN egoU typesSimpleAssignable gapNG q 3)
    ∧ RvNew.linkInput egoU typesSimpleAssignable gapNG 0 3 [1] none = .ok none
    ∧ (aget gapNG 0).inputs = [] ++ ({ typ := 3 } : RvNew.Input) :: []
    ∧ RvNew.LinkProvides egoU typesSimpleAssignable gapNG 0 [1]
      = .error .cannotProvideValue
    ∧ (∀ q ∈ gapGr.provides, q ≠ 0 →
        ¬ RvOld.HasMatchO egoU (RvOld.assignableOf egoU {}) gapGr.funcs q 3)
    ∧ RvOld.linkCandsO egoU (RvOld.assignableOf egoU {}) gapGr.funcs 0 3 [1] none
      = .ok none
    ∧ gapGr.invokes ++ gapGr.provides = [] ++ 0 :: [1]
    ∧ RvOld.resolveO egoU gapGr {} = (some .cannotProvideValue, []) := by
  have hn : ∀ q ∈ [1], q ≠ 0 → ¬ RvNew.HasMatchN egoU typesSimpleAssignable gapNG q 3 := by
    simp only [RvNew.HasMatchN]
    decide
  have ho : ∀ q ∈ gapGr.provides, q ≠ 0 →
      ¬ RvOld.HasMatchO egoU (RvOld.assignableOf egoU {}) gapGr.funcs q 3 := by
    simp only [RvOld.HasMatchO]
    decide
  refine ⟨hn, ?_, rfl, ?_, ho, ?_, rfl, ?_⟩
  · exact link_cannot_provide_value.1 egoU typesSimpleAssignable gapNG 0 3 [1] hn
  · exact link_cannot_provide_value.2.1 egoU typesSimpleAssignable gapNG gapNG 0 [1]
      [] { typ := 3 } [] rfl rfl hn
  · exact link_cannot_provide_value.2.2.1 egoU (RvOld.assignableOf egoU {})
      gapGr.funcs 0 3 [1] ho
  · exact link_cannot_provide_value.2.2.2 egoU gapGr {} gapGr.funcs gapGr.funcs
      [] [1] 0 [] 3 [] rfl rfl rfl rfl ho

/-! ## Claim C4: user-error transparency and abortion -/

namespace RvNew

/-- The result-splitting loop: if the results are a prefix free of non-nil
error-typed values followed by a non-nil error-typed value, the split
short-circuits with exactly that error (`src/function.go` lines 101-110). -/
theorem applyResults_clean_error (U : TypeUniverse) (e : Nat) (v : Val)
    (vs2 : List Val) (hv : U.isError v.typ = true) (he : v.err? = some e) :
    ∀ (vs1 : List Val) (outs : List Output) (i : Nat),
      (∀ u ∈ vs1, U.isError u.typ = true → u.err? = none) →
      (applyResults U outs (vs1 ++ v :: vs2) i).2 = some (.userErr e) := by
  intro vs1
  induction vs1 with
  | nil =>
    intro outs i _
    simp only [List.nil_append, applyResults]
    rw [if_pos hv, he]
  | cons u us ih =>
    intro outs i hclean
    simp only [List.cons_append, applyResults]
    by_cases hu : U.isError u.typ = true
    · rw [if_pos hu, hclean u (List.mem_cons_self _ _) hu]
      exact ih outs (i + 1) (fun x hx hxe => hclean x (List.mem_cons_of_mem _ hx) hxe)
    · rw [if_neg hu]
      exact ih _ (i + 1) (fun x hx hxe => hclean x (List.mem_cons_of_mem _ hx) hxe)

end RvNew

namespace RvOld

/-- The first revision's result splitting behaves the same way: a clean
prefix followed by a non-nil error-typed value short-circuits with that
error. -/
theorem splitValsO_clean_error (U : TypeUniverse) (e : Nat) (v : Val)
    (vs2 : List Val) (hv : U.isError v.typ = true) (he : v.err? = some e) :
    ∀ (vs1 : List Val),
      (∀ u ∈ vs1, U.isError u.typ = true → u.err? = none) →
      splitValsO U (vs1 ++ v :: vs2) = .error (.userErr e) := by
  intro vs1
  induction vs1 with
  | nil =>
    intro _
    simp only [List.nil_append, splitValsO]
    rw [if_pos hv, he]
  | cons u us ih =>
    intro hclean
    simp only [List.cons_append, splitValsO]
    by_cases hu : U.isError u.typ = true
    · rw [if_pos hu, hclean u (List.mem_cons_self _ _) hu]
      exact ih (fun x hx hxe => hclean x (List.mem_cons_of_mem _ hx) hxe)
    · rw [if_neg hu, List.append_eq, ih (fun x hx hxe => hclean x (List.mem_cons_of_mem _ hx) hxe)]

/-- The execution loop never changes a layer (`callO` only writes
`outValues`). -/
theorem execLoop_layers (U : TypeUniverse) (asn : Nat → Nat → Bool) :
    ∀ (order : List Nat) (g : Array OFunc) (log : List Nat) (i : Nat),
      (aget (execLoop U asn order g log).g i).layer = (aget g i).layer := by
  intro order
  induction order with
  | nil =>
    intro g log i
    rfl
  | cons fid rest ih =>
    intro g log i
    simp only [execLoop]
    split
    · exact ih g log i
    · cases hcol : collectArgsO asn g fid with
      | error e =>
        simp only [hcol]
      | ok args =>
        rcases hcall : callO U g fid args with ⟨g', inv, err⟩
        have hgl : (aget g' i).layer = (aget g i).layer := by
          have hh := callO_layers U g fid args i
          rw [hcall] at hh
          exact hh
        cases err with
        | some e =>
          simp only [hcol, hcall]
          exact hgl
        | none =>
          simp only [hcol, hcall]
          rw [ih g' (if inv then log ++ [fid] else log) i]
          exact hgl

/-- Running the loop over a concatenation: once the first segment ends
without error, the loop continues over the second segment from the reached
heap and log. -/
theorem execLoop_append_ok (U : TypeUniverse) (asn : Nat → Nat → Bool) :
    ∀ (pre rest : List Nat) (g g' : Array OFunc) (log log' : List Nat),
      execLoop U asn pre g log = ⟨g', log', none⟩ →
      execLoop U asn (pre ++ rest) g log = execLoop U asn rest g' log' := by
  intro pre
  induction pre with
  | nil =>
    intro rest g g' log log' h
    simp only [execLoop] at h
    injection h with h1 h2 h3
    subst h1
    subst h2
    rfl
  | cons fid pr ih =>
    intro rest g g' log log' h
    simp only [execLoop] at h
    simp only [List.cons_append, execLoop]
    by_cases hl : (aget g fid).layer = 0
    · rw [if_pos hl] at h ⊢
      exact ih rest g g' log log' h
    · rw [if_neg hl] at h ⊢
      cases hcol : collectArgsO asn g fid with
      | error e =>
        simp only [hcol] at h
        injection h with h1 h2 h3
        exact Option.noConfusion h3
      | ok args =>
        rcases hcall : callO U g fid args with ⟨ga, inv, err⟩
        cases err with
        | some e =>
          simp only [hcol, hcall] at h
          injection h with h1 h2 h3
          exact Option.noConfusion h3
        | none =>
          simp only [hcol, hcall] at h ⊢
          exact ih rest ga g' (if inv then log ++ [fid] else log) log' h

/-- After a successful layer pass over an initially layer-zero heap, final
layers strictly increase along every nonempty chain of input-to-producer
edges out of a raised node. -/
theorem transGen_layer_lt {entries : List (Option Nat)} {lay : Nat}
    {g1 g2 : Array OFunc} (hwf : WFlinks g1)
    (h : setLayersO entries lay g1 = .ok g2)
    (hzero : ∀ i, (aget g1 i).layer = 0) {c p : Nat}
    (hcp : Relation.TransGen (edgeO g2) c p)
    (hc : (aget g2 c).layer ≠ 0) :
    (aget g2 c).layer < (aget g2 p).layer := by
  have step : ∀ a b, edgeO g2 a b → (aget g2 a).layer ≠ 0 →
      (aget g2 a).layer < (aget g2 b).layer := by
    intro a b hedge ha
    have hedge1 : edgeO g1 a b := (setLayersO_ok_edge_iff h a b).mp hedge
    have hr : (aget g1 a).layer < (aget g2 a).layer := by
      rw [hzero a]
      omega
    exact setLayersO_ok_edgeRaise hwf h hedge1 hr
  induction hcp with
  | single hedge => exact step _ _ hedge hc
  | tail hab hbp ih =>
    refine lt_trans ih (step _ _ hbp ?_)
    omega

/-- Unfolding `setLayersO` on an empty entry list below the guard. -/
theorem setLayersO_nil_le (lay : Nat) (g : Array OFunc) (hle : lay ≤ 1000) :
    setLayersO [] lay g = .ok g := by
  rw [setLayersO.eq_def, if_neg (by omega)]

/-- Unfolding `setLayersO` on a set entry below the guard. -/
theorem setLayersO_cons_le (lay : Nat) (g : Array OFunc) (fid : Nat)
    (rest : List (Option Nat)) (hle : lay ≤ 1000) :
    setLayersO (some fid :: rest) lay g =
      match setLayersO (aget g fid).inProvides (lay + 1) (bumpLayer g fid lay) with
      | .error e => .error e
      | .ok g2 => setLayersO rest lay g2 := by
  rw [setLayersO.eq_def, if_neg (by omega)]

end RvOld

/-- C4: a non-nil error-typed result of an executed user function aborts
resolution with exactly that error (`errors.Is`-transparent, modelled by the
`userErr` payload), and no consumer depending on the failed function runs.

Conjunct 1 (second revision, `src/function.go` lines 63-112): when `Call`
reaches the target and the results are a clean prefix followed by a non-nil
error-typed value, `Call` returns exactly that error, the target was
invoked, and the node ends in state `Called`.  Conjunct 2 (first revision,
`src/revolver.go` lines 95-112): when the execution loop reaches function
`p` with no earlier error and `p`'s target returns such a result list,
`resolve` stops at once — the heap keeps the pre-call values (so `p`'s
outputs are never published), `Revolve` returns exactly `p`'s error, and no
function transitively depending on `p` is ever called. -/
theorem user_error_transparency :
    (∀ (U : TypeUniverse) (g : Array RvNew.Function) (fid : Nat)
        (args : List (Option Val)) (vs1 : List Val) (v : Val) (vs2 : List Val)
        (e : Nat),
      (aget g fid).state.toNat < FnState.called.toNat →
      RvNew.collectArgsValues g (aget g fid).inputs = .ok args →
      (aget g fid).target args = vs1 ++ v :: vs2 →
      (∀ u ∈ vs1, U.isError u.typ = true → u.err? = none) →
      U.isError v.typ = true →
      v.err? = some e →
      fid < g.size →
      (RvNew.call U g fid false).2.1 = some (.userErr e)
        ∧ (RvNew.call U g fid false).2.2 = true
        ∧ (aget (RvNew.call U g fid false).1 fid).state = .called)
    ∧ (∀ (U : TypeUniverse) (gr : RvOld.OGraph) (fl : RvOld.Flags)
        (g1 g2 gp : Array RvOld.OFunc) (pre : List Nat) (p : Nat)
        (suf log : List Nat) (args : List Val) (vs1 : List Val) (v : Val)
        (vs2 : List Val) (e : Nat),
      RvOld.OWF gr →
      fl.dryRun = false →
      RvOld.linkAllO U (RvOld.assignableOf U fl) gr.funcs gr.provides
        (gr.invokes ++ gr.provides) = .ok g1 →
      RvOld.setLayersO (gr.invokes.map some) 1 g1 = .ok g2 →
      RvOld.sortByLayer g2 (gr.invokes ++ gr.provides) = pre ++ p :: suf →
      RvOld.execLoop U (RvOld.assignableOf U fl) pre g2 [] = ⟨gp, log, none⟩ →
      (aget g2 p).layer ≠ 0 →
      RvOld.collectArgsO (RvOld.assignableOf U fl) gp p = .ok args →
      (aget gp p).hasTarget = true →
      (aget gp p).target args = vs1 ++ v :: vs2 →
      (∀ u ∈ vs1, U.isError u.typ = true → u.err? = none) →
      U.isError v.typ = true →
      v.err? = some e →
      RvOld.execLoop U (RvOld.assignableOf U fl)
          (RvOld.sortByLayer g2 (gr.invokes ++ gr.provides)) g2 []
          = ⟨gp, log ++ [p], some (.userErr e)⟩
        ∧ RvOld.resolveO U gr fl = (some (.userErr e), log ++ [p])
        ∧ ∀ c, Relation.TransGen (RvOld.edgeO g2) c p →
            c ∉ (RvOld.resolveO U gr fl).2) := by
  constructor
  · intro U g fid args vs1 v vs2 e hst hcoll htg hclean hv he hfs
    unfold RvNew.call
    rw [if_neg (by omega)]
    simp only [hcoll, Bool.false_eq_true, if_false]
    rw [htg]
    have hsnd := RvNew.applyResults_clean_error U e v vs2 hv he vs1
      (aget g fid).outputs 0 hclean
    rcases hap : RvNew.applyResults U (aget g fid).outputs (vs1 ++ v :: vs2) 0
      with ⟨outs, res⟩
    rw [hap] at hsnd
    have hres : res = some (.userErr e) := hsnd
    subst hres
    simp only [hap]
    refine ⟨trivial, trivial, ?_⟩
    rw [aget_aset_self _ _ _ hfs]
  · intro U gr fl g1 g2 gp pre p suf log args vs1 v vs2 e hwf hdry hlink hlay
      hsort hpre hlayer hcoll htgt htg hclean hv he
    obtain ⟨hwfl, hall, hl0, hsz⟩ := RvOld.linked_facts hwf hlink
    have hlaygp : (aget gp p).layer = (aget g2 p).layer := by
      have hh := RvOld.execLoop_layers U (RvOld.assignableOf U fl) pre g2 [] p
      rw [hpre] at hh
      exact hh
    have hcall : RvOld.callO U gp p args = (gp, true, some (.userErr e)) := by
      unfold RvOld.callO
      rw [if_neg (by simp [htgt])]
      rw [htg, RvOld.splitValsO_clean_error U e v vs2 hv he vs1 hclean]
    have hexec : RvOld.execLoop U (RvOld.assignableOf U fl)
        (RvOld.sortByLayer g2 (gr.invokes ++ gr.provides)) g2 []
        = ⟨gp, log ++ [p], some (.userErr e)⟩ := by
      rw [hsort, RvOld.execLoop_append_ok U (RvOld.assignableOf U fl) pre
        (p :: suf) g2 gp [] log hpre]
      simp only [RvOld.execLoop]
      rw [if_neg (by rw [hlaygp]; exact hlayer)]
      simp only [hcoll, hcall, if_true]
    have hres : RvOld.resolveO U gr fl = (some (.userErr e), log ++ [p]) := by
      unfold RvOld.resolveO
      rw [hlink]
      simp only [hdry, Bool.false_eq_true, if_false, hlay]
      rw [hexec]
    refine ⟨hexec, hres, ?_⟩
    intro c hcp hmem
    rw [hres] at hmem
    have hmem2 : c ∈ log ++ [p] := hmem
    rcases List.mem_append.mp hmem2 with hcl | hcp1
    · have hsub := RvOld.execLoop_called_sub U (RvOld.assignableOf U fl) pre g2 [] c
        (by rw [hpre]; exact hcl)
      rcases hsub with hfalse | ⟨hcpre, hcl0⟩
      · exact absurd hfalse (List.not_mem_nil c)
      · have hlt := RvOld.transGen_layer_lt hwfl hlay hl0 hcp hcl0
        haveI : IsTotal Nat (fun a b => (aget g2 b).layer ≤ (aget g2 a).layer) :=
          ⟨fun a b => le_total ((aget g2 b).layer) ((aget g2 a).layer)⟩
        haveI : IsTrans Nat (fun a b => (aget g2 b).layer ≤ (aget g2 a).layer) :=
          ⟨fun a b c hab hbc => le_trans hbc hab⟩
        have hsorted : List.Sorted (fun a b => (aget g2 b).layer ≤ (aget g2 a).layer)
            (RvOld.sortByLayer g2 (gr.invokes ++ gr.provides)) :=
          List.sorted_insertionSort _ _
        rw [hsort] at hsorted
        have hrel := (List.pairwise_append.mp hsorted).2.2 c hcpre p
          (List.mem_cons_self _ _)
        omega
    · rw [List.mem_singleton] at hcp1
      subst hcp1
      have hlt := RvOld.transGen_layer_lt hwfl hlay hl0 hcp hlayer
      omega

/-- A parsed state whose single provider returns a non-nil error: the invoke
(node 0) needs type 1; node 1 produces type 1 but its target returns one
value of the error type 99 carrying error payload 7. -/
def errGr : RvOld.OGraph where
  funcs := #[{ inTypes := [1], inProvides := [none] },
    { outTypes := [1], target := fun _ => [{ typ := 99, err? := some 7 }] }]
  invokes := [0]
  provides := [1]

/-- `errGr` after linking: node 0 consumes node 1. -/
def errLinked : Array RvOld.OFunc :=
  #[{ inTypes := [1], inProvides := [some 1] },
    { outTypes := [1], inProvides := [],
      target := fun _ => [{ typ := 99, err? := some 7 }] }]

/-- `errLinked` after raising node 0 to layer 1. -/
def errMid : Array RvOld.OFunc :=
  #[{ inTypes := [1], inProvides := [some 1], layer := 1 },
    { outTypes := [1], inProvides := [],
      target := fun _ => [{ typ := 99, err? := some 7 }] }]

/-- `errLinked` after the layer pass: node 0 at layer 1, node 1 at layer 2. -/
def errLayered : Array RvOld.OFunc :=
  #[{ inTypes := [1], inProvides := [some 1], layer := 1 },
    { outTypes := [1], inProvides := [], layer := 2,
      target := fun _ => [{ typ := 99, err? := some 7 }] }]

theorem errGr_wf : RvOld.OWF errGr := by
  refine ⟨by decide, by decide, by decide, ?_, ?_, ?_⟩
  · refine RvOld.forall_aget errGr.funcs
      (fun f : RvOld.OFunc => f.inProvides.length ≤ f.inTypes.length)
      (fun i hi => ?_) (by decide)
    have h2 : i < 2 := by simpa [errGr] using hi
    interval_cases i <;> decide
  · refine RvOld.forall_aget errGr.funcs (fun f : RvOld.OFunc => f.layer = 0)
      (fun i hi => ?_) (by decide)
    have h2 : i < 2 := by simpa [errGr] using hi
    interval_cases i <;> decide
  · refine RvOld.forall_aget errGr.funcs
      (fun f : RvOld.OFunc => ∀ e ∈ f.inProvides, e = none)
      (fun i hi => ?_) (by decide)
    have h2 : i < 2 := by simpa [errGr] using hi
    interval_cases i <;> decide

/-- The layer pass on `errLinked`, computed step by step. -/
theorem errLinked_setLayers :
    RvOld.setLayersO [some 0] 1 errLinked = .ok errLayered := by
  have e0 : RvOld.bumpLayer errLinked 0 1 = errMid := rfl
  have e1 : RvOld.bumpLayer errMid 1 2 = errLayered := rfl
  have i0 : (aget errLinked 0).inProvides = [some 1] := rfl
  have i1 : (aget errMid 1).inProvides = ([] : List (Option Nat)) := rfl
  have s3 : RvOld.setLayersO [] 3 errLayered = .ok errLayered :=
    RvOld.setLayersO_nil_le 3 errLayered (by omega)
  have s1 : RvOld.setLayersO [some 1] 2 errMid = .ok errLayered := by
    rw [RvOld.setLayersO_cons_le 2 errMid 1 [] (by omega), i1, e1, s3]
    exact RvOld.setLayersO_nil_le 2 errLayered (by omega)
  rw [RvOld.setLayersO_cons_le 1 errLinked 0 [] (by omega), i0, e0, s1]
  exact RvOld.setLayersO_nil_le 1 errLayered (by omega)

/-- A one-node second-revision heap whose function returns a non-nil error
value. -/
def errNG : Array RvNew.Function :=
  #[{ inputs := [], outputs := [],
      target := fun _ => [{ typ := 99, err? := some 7 }] }]

theorem user_error_transparency_witness :
    (aget errNG 0).state.toNat < FnState.called.toNat
    ∧ RvNew.collectArgsValues errNG (aget errNG 0).inputs = .ok []
    ∧ (aget errNG 0).target [] = [] ++ ({ typ := 99, err? := some 7 } : Val) :: []
    ∧ egoU.isError 99 = true
    ∧ (RvNew.call egoU errNG 0 false).2.1 = some (.userErr 7)
    ∧ (RvNew.call egoU errNG 0 false).2.2 = true
    ∧ (aget (RvNew.call egoU errNG 0 false).1 0).state = .called
    ∧ RvOld.OWF errGr
    ∧ RvOld.linkAllO egoU (RvOld.assignableOf egoU {}) errGr.funcs errGr.provides
        (errGr.invokes ++ errGr.provides) = .ok errLinked
    ∧ RvOld.setLayersO (errGr.invokes.map some) 1 errLinked = .ok errLayered
    ∧ RvOld.sortByLayer errLayered (errGr.invokes ++ errGr.provides) = [] ++ 1 :: [0]
    ∧ Relation.TransGen (RvOld.edgeO errLayered) 0 1
    ∧ RvOld.resolveO egoU errGr {} = (some (.userErr 7), [] ++ [1])
    ∧ 0 ∉ (RvOld.resolveO egoU errGr {}).2 := by
  have hlink : RvOld.linkAllO egoU (RvOld.assignableOf egoU {}) errGr.funcs
      errGr.provides (errGr.invokes ++ errGr.provides) = .ok errLinked := rfl
  have hlay : RvOld.setLayersO (errGr.invokes.map some) 1 errLinked
      = .ok errLayered := errLinked_setLayers
  have hedge : RvOld.edgeO errLayered 0 1 := by decide
  have hold := user_error_transparency.2 egoU errGr {} errLinked errLayered
    errLayered [] 1 [0] [] [] [] { typ := 99, err? := some 7 } [] 7
    errGr_wf rfl hlink hlay rfl rfl (by decide) rfl rfl rfl (by simp) rfl rfl
  have hnew := user_error_transparency.1 egoU errNG 0 [] []
    { typ := 99, err? := some 7 } [] 7 (by decide) rfl rfl (by simp) rfl rfl
    (by decide)
  refine ⟨by decide, rfl, rfl, rfl, hnew.1, hnew.2.1, hnew.2.2, errGr_wf, hlink,
    hlay, rfl, .single hedge, hold.2.1, hold.2.2 0 (.single hedge)⟩
